import Mathlib

/-!
Intrusive pairing heap (`pheap.c`): pointer-level embedding.

A node reference is `Option Nat`: `none` is `NULL`, `some a` is the node stored at
address `a`.  The two fields of `struct PHeap` live in a memory `Nat → PHeap`, and
every operation of `pheap.c` is a function that passes the memory explicitly.
The state also counts how often the comparator has been invoked.

The comparator receives two node references and, in the repository, reads only the
record that owns each node (never the heap fields), so it is a function of the two
addresses.
-/

namespace PairingHeap

/-- The C record `struct PHeap`: head of the child list and right sibling. -/
structure PHeap where
  subheaps : Option Nat
  next : Option Nat
deriving DecidableEq, Repr

/-- Memory holding the heap nodes, together with the number of comparator calls made. -/
structure State where
  mem : Nat → PHeap
  calls : Nat

/-- The assignment `a->next = v`. -/
def State.setNext (s : State) (a : Nat) (v : Option Nat) : State :=
  { s with mem := fun x => if x = a then { s.mem x with next := v } else s.mem x }

/-- The assignment `a->subheaps = v`. -/
def State.setSubheaps (s : State) (a : Nat) (v : Option Nat) : State :=
  { s with mem := fun x => if x = a then { s.mem x with subheaps := v } else s.mem x }

/-- One invocation of the comparator. -/
def State.tick (s : State) : State :=
  { s with calls := s.calls + 1 }

/-- Ways in which a run of the model stops without a result. -/
inductive Fault where
  | nullDeref
  | fuel
deriving DecidableEq, Repr

/-- Function `pheap_meld` (pheap.c lines 31-64). -/
def pheap_meld (cmp : Nat → Nat → Bool) (left right : Option Nat) (s : State) :
    Option Nat × State :=
  match left, right with
  | none, _ => (right, s)
  | some l, none => (some l, s)
  | some l, some r =>
    let s0 := s.tick
    if cmp l r then
      let s1 := match (s0.mem l).subheaps with
        | some c => s0.setNext r (some c)
        | none => s0
      (some l, s1.setSubheaps l (some r))
    else
      let s1 := match (s0.mem r).subheaps with
        | some c => s0.setNext l (some c)
        | none => s0
      (some r, s1.setSubheaps r (some l))

/-- Function `pheap_insert` (pheap.c lines 70-79); `elem` is dereferenced
unconditionally, so it is an address. -/
def pheap_insert (cmp : Nat → Nat → Bool) (heap : Option Nat) (elem : Nat) (s : State) :
    Option Nat × State :=
  let s1 := s.setSubheaps elem none
  let s2 := s1.setNext elem none
  pheap_meld cmp (some elem) heap s2

/-- Function `pheap_merge_pairs` (pheap.c lines 87-106).  The recursion follows `next`
pointers through memory, so it is bounded by `fuel`.  The two arguments of the outer
meld are evaluated left to right; `merge_pairs_order_irrelevant` shows that the other
order, `pheap_merge_pairs_rtl`, gives the same result on a list of disjoint trees. -/
def pheap_merge_pairs (cmp : Nat → Nat → Bool) :
    Nat → Option Nat → State → Except Fault (Option Nat × State)
  | 0, _, _ => .error .fuel
  | _ + 1, none, s => .ok (none, s)
  | fuel + 1, some l, s =>
    match (s.mem l).next with
    | none => .ok (some l, s)
    | some n =>
      let s1 := s.setNext l none
      let rest := (s1.mem n).next
      let s2 := s1.setNext n none
      let first := pheap_meld cmp (some l) (some n) s2
      match pheap_merge_pairs cmp fuel rest first.2 with
      | .error e => .error e
      | .ok second => .ok (pheap_meld cmp first.1 second.1 second.2)

/-- Function `pheap_delete_min` (pheap.c lines 115-118); reading `heap->subheaps`
through `NULL` is a fault. -/
def pheap_delete_min (cmp : Nat → Nat → Bool) (fuel : Nat) (heap : Option Nat) (s : State) :
    Except Fault (Option Nat × State) :=
  match heap with
  | none => .error .nullDeref
  | some r => pheap_merge_pairs cmp fuel (s.mem r).subheaps s

/-- Function `pheap_visit_heap` (pheap.c lines 123-128): the result is the sequence of
nodes on which the visitor is invoked. -/
def pheap_visit_heap : Nat → Option Nat → State → Except Fault (List Nat)
  | 0, _, _ => .error .fuel
  | _ + 1, none, _ => .ok []
  | fuel + 1, some a, s =>
    match pheap_visit_heap fuel (s.mem a).subheaps s with
    | .error e => .error e
    | .ok below =>
      match pheap_visit_heap fuel (s.mem a).next s with
      | .error e => .error e
      | .ok right => .ok (a :: (below ++ right))

/-- The loop `while (heap) { min = heap; heap = delete_min(heap); ... }` of
pheap_test.c lines 58-64: the result is the sequence of extracted roots. -/
def drain (cmp : Nat → Nat → Bool) : Nat → Option Nat → State → Except Fault (List Nat)
  | _, none, _ => .ok []
  | 0, some _, _ => .error .fuel
  | fuel + 1, some r, s =>
    match pheap_delete_min cmp (fuel + 1) (some r) s with
    | .error e => .error e
    | .ok res =>
      match drain cmp fuel res.1 res.2 with
      | .error e => .error e
      | .ok out => .ok (r :: out)

/-- Insert the nodes of `es` one after the other, first element first. -/
def insertAll (cmp : Nat → Nat → Bool) : List Nat → Option Nat → State → Option Nat × State
  | [], h, s => (h, s)
  | e :: es, h, s => insertAll cmp es (pheap_insert cmp h e s).1 (pheap_insert cmp h e s).2

/-- Take the root and call `pheap_delete_min`, `k` times; the result is the extracted
roots in order, the final heap and the final state. -/
def extractN (cmp : Nat → Nat → Bool) (fuel : Nat) :
    Nat → Option Nat → State → Except Fault (List Nat × Option Nat × State)
  | 0, h, s => .ok ([], h, s)
  | k + 1, h, s =>
    match h with
    | none => .error .nullDeref
    | some r =>
      match pheap_delete_min cmp fuel (some r) s with
      | .error e => .error e
      | .ok res =>
        match extractN cmp fuel k res.1 res.2 with
        | .error e => .error e
        | .ok (out, h2, s2) => .ok (r :: out, h2, s2)

/-- A memory in which every node has both fields `NULL`, and no comparator call made. -/
def blank : State := { mem := fun _ => { subheaps := none, next := none }, calls := 0 }

/-- Values of the sample records stored at addresses 1, 2, 3, 4: 5, 3, 8, 1. -/
def sampleValue (a : Nat) : Nat :=
  if a = 1 then 5 else if a = 2 then 3 else if a = 3 then 8 else if a = 4 then 1 else 0

/-- The comparator of pheap_test.c lines 13-18, `l->value < r->value`, for records whose
`value` field is given by `v`. -/
def keyCmp (v : Nat → Nat) (a b : Nat) : Bool := decide (v a < v b)

/-- The comparator of pheap_test.c on the sample records. -/
def sampleCmp : Nat → Nat → Bool := keyCmp sampleValue

/-- Shape of a linked structure in leftmost-child / right-sibling form: `cell a k n` is
the node at address `a` whose `subheaps` field heads the structure `k` and whose `next`
field heads the structure `n`. -/
inductive Shape where
  | leaf
  | cell (a : Nat) (kids : Shape) (sibs : Shape)
deriving DecidableEq, Repr

/-- Addresses of all nodes of a shape, in the order child list first, then siblings. -/
def Shape.addrs : Shape → List Nat
  | .leaf => []
  | .cell a k n => a :: (k.addrs ++ n.addrs)

/-- Addresses of the nodes on the top-level sibling list of a shape. -/
def Shape.spine : Shape → List Nat
  | .leaf => []
  | .cell a _ n => a :: n.spine

/-- The head of a represented shape, read from the shape. -/
def Shape.head : Shape → Option Nat
  | .leaf => none
  | .cell a _ _ => some a

/-- The number of nodes of a shape. -/
def Shape.size : Shape → Nat
  | .leaf => 0
  | .cell _ k n => k.size + n.size + 1

/-- The shape is empty or one tree whose root has no sibling. -/
def Shape.single : Shape → Prop
  | .leaf => True
  | .cell _ _ n => n = .leaf

/-- The memory holds shape `t` at reference `p`. -/
def Rep (mem : Nat → PHeap) : Option Nat → Shape → Prop
  | p, .leaf => p = none
  | p, .cell a k n => p = some a ∧ Rep mem (mem a).subheaps k ∧ Rep mem (mem a).next n

/-- A well-formed heap: the memory holds a tree at `h`, no node occurs twice, and the
root has an empty sibling field. -/
structure WellFormed (mem : Nat → PHeap) (h : Option Nat) (t : Shape) : Prop where
  rep : Rep mem h t
  nodup : t.addrs.Nodup
  single : t.single

/-- Node `c` lies on the sibling list that starts at reference `p`. -/
inductive OnList (mem : Nat → PHeap) : Option Nat → Nat → Prop where
  | head (a : Nat) : OnList mem (some a) a
  | tail (a c : Nat) : OnList mem (mem a).next c → OnList mem (some a) c

/-- What `pheap_meld` builds from two trees whose roots have no sibling. -/
def meldShape (cmp : Nat → Nat → Bool) : Shape → Shape → Shape
  | .leaf, t => t
  | .cell l kl nl, .leaf => .cell l kl nl
  | .cell l kl _, .cell r kr _ =>
    if cmp l r then .cell l (.cell r kr kl) .leaf else .cell r (.cell l kl kr) .leaf

/-- What `pheap_merge_pairs` builds from a sibling list of trees. -/
def mergePairsShape (cmp : Nat → Nat → Bool) : Shape → Shape
  | .leaf => .leaf
  | .cell a k .leaf => .cell a k .leaf
  | .cell a k (.cell b kb rest) =>
    meldShape cmp (meldShape cmp (.cell a k .leaf) (.cell b kb .leaf)) (mergePairsShape cmp rest)

/-- Every node of the shape is related by `R` to its parent; the nodes on the top-level
sibling list have parent `par` when there is one. -/
def Shape.ordered (R : Nat → Nat → Prop) : Option Nat → Shape → Prop
  | _, .leaf => True
  | par, .cell a k n =>
    (∀ p, par = some p → R p a) ∧ Shape.ordered R (some a) k ∧ Shape.ordered R par n

/-- The parent-child relation kept by meld: the child is not strictly preferred to the
parent. -/
def NotBefore (cmp : Nat → Nat → Bool) (p c : Nat) : Prop := cmp c p = false

/-- A strict weak ordering: irreflexive, transitive, with transitive incomparability. -/
structure StrictWeakOrder (cmp : Nat → Nat → Bool) : Prop where
  irrefl : ∀ a, cmp a a = false
  trans : ∀ a b c, cmp a b = true → cmp b c = true → cmp a c = true
  incomp : ∀ a b c, cmp a b = false → cmp b a = false → cmp b c = false → cmp c b = false →
    cmp a c = false ∧ cmp c a = false

/-- Heaps reached from the empty heap by inserting nodes that are not in the heap and by
deleting the minimum of non-empty heaps; the list holds the nodes inserted and not yet
extracted. -/
inductive Reachable (cmp : Nat → Nat → Bool) : Option Nat → State → List Nat → Prop where
  | empty (s : State) : Reachable cmp none s []
  | insert (h : Option Nat) (s : State) (es : List Nat) (e : Nat) :
      Reachable cmp h s es → e ∉ es →
      Reachable cmp (pheap_insert cmp h e s).1 (pheap_insert cmp h e s).2 (e :: es)
  | deleteMin (r : Nat) (s : State) (es : List Nat) (fuel : Nat) (h2 : Option Nat)
      (s2 : State) :
      Reachable cmp (some r) s es → pheap_delete_min cmp fuel (some r) s = .ok (h2, s2) →
      Reachable cmp h2 s2 (es.erase r)

/-- Function `pheap_merge_pairs` with the two arguments of the outer meld evaluated right
to left, the other order that C allows for line 104. -/
def pheap_merge_pairs_rtl (cmp : Nat → Nat → Bool) :
    Nat → Option Nat → State → Except Fault (Option Nat × State)
  | 0, _, _ => .error .fuel
  | _ + 1, none, s => .ok (none, s)
  | fuel + 1, some l, s =>
    match (s.mem l).next with
    | none => .ok (some l, s)
    | some n =>
      let s1 := s.setNext l none
      let rest := (s1.mem n).next
      let s2 := s1.setNext n none
      match pheap_merge_pairs_rtl cmp fuel rest s2 with
      | .error e => .error e
      | .ok second =>
        let first := pheap_meld cmp (some l) (some n) second.2
        .ok (pheap_meld cmp first.1 second.1 first.2)

/-- The visiting sequence as the specification words it: `visit(empty) = []` and
`visit(n) = [n] ++ visit(n.children) ++ visit(n.sibling)`. -/
def visitOrder : Shape → List Nat
  | .leaf => []
  | .cell n kids sibs => [n] ++ visitOrder kids ++ visitOrder sibs

/-- The sibling list that starts at reference `p` is null-terminated and consists of the
nodes `l`, in this order. -/
def SibList (mem : Nat → PHeap) : Option Nat → List Nat → Prop
  | p, [] => p = none
  | p, a :: l => p = some a ∧ SibList mem (mem a).next l

/-- A machine pointer as a node reference: the null pointer is address 0. -/
def ofPtr (p : Nat) : Option Nat := if p = 0 then none else some p

/-- A node reference as a machine pointer. -/
def toPtr : Option Nat → Nat
  | none => 0
  | some a => a

/-- Function `pheap_or` (pheap.c lines 130-132) on machine pointers. -/
def pheap_or (a b : Nat) : Nat := if a = 0 then b else a

/-- Macro `container_of` (pheap.h line 41): the pointer minus the offset of the member, in
`w`-bit pointer arithmetic. -/
def container_of (w ptr off : Nat) : Nat := (ptr + 2 ^ w - off % 2 ^ w) % 2 ^ w

/-- The address `&(H)->pheap` of the heap-node field, at offset `off`, of the record at
address `H`, in `w`-bit pointer arithmetic. -/
def fieldAddr (w H off : Nat) : Nat := (H + off) % 2 ^ w

/-- Macro `PHEAP_insert` (pheap.h lines 44-46): a null record reference `H` is passed on
as the empty heap. -/
def PHEAP_insert (w off : Nat) (cmp : Nat → Nat → Bool) (H E : Nat) (s : State) :
    Nat × State :=
  let res := pheap_insert cmp (if H ≠ 0 then ofPtr (fieldAddr w H off) else none)
    (fieldAddr w E off) s
  (container_of w (toPtr res.1) off, res.2)

/-- Macro `PHEAP_visit` (pheap.h line 48). -/
def PHEAP_visit (w off fuel H : Nat) (s : State) : Except Fault (List Nat) :=
  pheap_visit_heap fuel (ofPtr (fieldAddr w H off)) s

/-- Macro `PHEAP_delete_min` (pheap.h lines 50-52). -/
def PHEAP_delete_min (w off : Nat) (cmp : Nat → Nat → Bool) (fuel H : Nat) (s : State) :
    Except Fault (Nat × State) :=
  match pheap_delete_min cmp fuel (ofPtr (fieldAddr w H off)) s with
  | .error e => .error e
  | .ok res => .ok (container_of w (pheap_or (toPtr res.1) off) off, res.2)

/-- A heap-ordered multi-way tree: a root and the list of its child trees. -/
inductive RTree where
  | node (root : Nat) (children : List RTree)

/-- Reference meld, as the specification words it: an empty side returns the other;
otherwise the preferred root keeps its children and gets the other tree prepended to its
child list. -/
def refMeld (cmp : Nat → Nat → Bool) : Option RTree → Option RTree → Option RTree
  | none, b => b
  | some a, none => some a
  | some (.node a ca), some (.node b cb) =>
    if cmp a b then some (.node a (.node b cb :: ca)) else some (.node b (.node a ca :: cb))

/-- Reference merge-pairs, as the specification words it: `mp([]) = empty`,
`mp([c1]) = c1`, `mp(c1 :: c2 :: rest) = meld(meld(c1, c2), mp(rest))`. -/
def refMergePairs (cmp : Nat → Nat → Bool) : List RTree → Option RTree
  | [] => none
  | [c] => some c
  | c1 :: c2 :: rest =>
    refMeld cmp (refMeld cmp (some c1) (some c2)) (refMergePairs cmp rest)

/-- The list of multi-way trees that a shape encodes. -/
def Shape.forest : Shape → List RTree
  | .leaf => []
  | .cell a k n => .node a k.forest :: n.forest

/-! ## Memory lemmas -/

@[simp] theorem mem_setNext (s : State) (a : Nat) (v : Option Nat) (x : Nat) :
    (s.setNext a v).mem x = if x = a then { s.mem x with next := v } else s.mem x := rfl

@[simp] theorem mem_setSubheaps (s : State) (a : Nat) (v : Option Nat) (x : Nat) :
    (s.setSubheaps a v).mem x = if x = a then { s.mem x with subheaps := v } else s.mem x := rfl

@[simp] theorem mem_tick (s : State) : s.tick.mem = s.mem := rfl

@[simp] theorem calls_setNext (s : State) (a : Nat) (v : Option Nat) :
    (s.setNext a v).calls = s.calls := rfl

@[simp] theorem calls_setSubheaps (s : State) (a : Nat) (v : Option Nat) :
    (s.setSubheaps a v).calls = s.calls := rfl

@[simp] theorem calls_tick (s : State) : s.tick.calls = s.calls + 1 := rfl

/-- A shape stays represented when the memory is unchanged on its nodes. -/
theorem rep_agree {mem mem2 : Nat → PHeap} (t : Shape) :
    ∀ p, (∀ a ∈ t.addrs, mem2 a = mem a) → Rep mem p t → Rep mem2 p t := by
  induction t with
  | leaf => intro p _ h; exact h
  | cell a k n ihk ihn =>
    intro p hag h
    obtain ⟨hp, hk, hn⟩ := h
    have ha : mem2 a = mem a := hag a (by simp [Shape.addrs])
    refine ⟨hp, ?_, ?_⟩
    · rw [ha]
      exact ihk _ (fun x hx => hag x (by simp [Shape.addrs, hx])) hk
    · rw [ha]
      exact ihn _ (fun x hx => hag x (by simp [Shape.addrs, hx])) hn

/-- The reference and the memory determine the shape. -/
theorem rep_unique {mem : Nat → PHeap} (t : Shape) :
    ∀ p u, Rep mem p t → Rep mem p u → t = u := by
  induction t with
  | leaf =>
    intro p u h hu
    cases u with
    | leaf => rfl
    | cell b kb nb =>
      have h1 : p = none := h
      have h2 : p = some b := hu.1
      rw [h1] at h2
      cases h2
  | cell a k n ihk ihn =>
    intro p u h hu
    cases u with
    | leaf =>
      have h1 : p = none := hu
      have h2 : p = some a := h.1
      rw [h1] at h2
      cases h2
    | cell b kb nb =>
      obtain ⟨hp, hk, hn⟩ := h
      obtain ⟨hp2, hk2, hn2⟩ := hu
      have hab : a = b := by
        rw [hp] at hp2
        exact Option.some.inj hp2
      subst hab
      rw [ihk _ _ hk hk2, ihn _ _ hn hn2]

/-! ## Meld on well-formed trees -/

theorem rep_leaf {mem : Nat → PHeap} {p : Option Nat} : Rep mem p .leaf ↔ p = none := Iff.rfl

theorem rep_cell {mem : Nat → PHeap} {p : Option Nat} {a : Nat} {k n : Shape} :
    Rep mem p (.cell a k n) ↔
      p = some a ∧ Rep mem (mem a).subheaps k ∧ Rep mem (mem a).next n := Iff.rfl

theorem rep_head {mem : Nat → PHeap} {p : Option Nat} {t : Shape} (h : Rep mem p t) :
    p = t.head := by
  cases t with
  | leaf => exact h
  | cell a k n => exact h.1

/-- Meld of two non-empty trees with disjoint nodes: the result is represented, only the
two roots are written, and the comparator is called once. -/
theorem meld_cells (cmp : Nat → Nat → Bool) (s : State) (l r : Nat) (kl kr : Shape)
    (hl : Rep s.mem (some l) (.cell l kl .leaf)) (hr : Rep s.mem (some r) (.cell r kr .leaf))
    (hnd : ((Shape.cell l kl .leaf).addrs ++ (Shape.cell r kr .leaf).addrs).Nodup) :
    Rep (pheap_meld cmp (some l) (some r) s).2.mem (pheap_meld cmp (some l) (some r) s).1
        (meldShape cmp (.cell l kl .leaf) (.cell r kr .leaf))
      ∧ (∀ x, x ≠ l → x ≠ r → (pheap_meld cmp (some l) (some r) s).2.mem x = s.mem x)
      ∧ (pheap_meld cmp (some l) (some r) s).2.calls = s.calls + 1 := by
  obtain ⟨-, hkl, hnl⟩ := hl
  obtain ⟨-, hkr, hnr⟩ := hr
  have hnl2 : (s.mem l).next = none := hnl
  have hnr2 : (s.mem r).next = none := hnr
  simp only [Shape.addrs, List.append_nil, List.cons_append, List.nodup_cons,
    List.mem_cons, List.mem_append, List.nodup_append, not_or, List.Disjoint] at hnd
  obtain ⟨⟨hlkl, hlr, hlkr⟩, ⟨hndl, ⟨hrkr, hndr⟩, hdis⟩⟩ := hnd
  have hrkl : r ∉ kl.addrs := fun h => (hdis h) (Or.inl rfl)
  have hrl : r ≠ l := fun h => hlr h.symm
  by_cases hc : cmp l r = true
  · cases kl with
    | leaf =>
      have hsub : (s.mem l).subheaps = none := hkl
      simp only [pheap_meld, hc, meldShape, if_true, mem_tick, hsub]
      refine ⟨⟨rfl, ⟨?_, ?_, ?_⟩, ?_⟩, ?_, ?_⟩
      · simp
      · simp only [mem_setSubheaps, mem_tick, if_true, if_neg hrl]
        exact rep_agree kr _ (fun a ha => by
          have : a ≠ l := fun h => hlkr (h ▸ ha)
          simp [this]) hkr
      · simp only [mem_setSubheaps, mem_tick, if_true, if_neg hrl]
        exact hnr
      · simp only [mem_setSubheaps, mem_tick, if_true]
        exact hnl
      · intro x hxl _
        simp [hxl]
      · simp
    | cell c kc nc =>
      have hsub : (s.mem l).subheaps = some c := hkl.1
      simp only [pheap_meld, hc, meldShape, if_true, mem_tick, hsub]
      refine ⟨⟨rfl, ⟨?_, ?_, ?_⟩, ?_⟩, ?_, ?_⟩
      · simp
      · simp only [mem_setSubheaps, mem_setNext, mem_tick, if_true, if_neg hrl]
        exact rep_agree kr _ (fun a ha => by
          have h1 : a ≠ l := fun h => hlkr (h ▸ ha)
          have h2 : a ≠ r := fun h => hrkr (h ▸ ha)
          simp [h1, h2]) hkr
      · simp only [mem_setSubheaps, mem_setNext, mem_tick, if_true, if_neg hrl]
        have hk2 : Rep s.mem (some c) (.cell c kc nc) := by
          rw [← hsub]; exact hkl
        exact rep_agree _ _ (fun a ha => by
          have h1 : a ≠ l := fun h => hlkl (h ▸ ha)
          have h2 : a ≠ r := fun h => hrkl (h ▸ ha)
          simp [h1, h2]) hk2
      · simp only [mem_setSubheaps, mem_setNext, mem_tick, if_true, if_neg hlr]
        exact hnl
      · intro x hxl hxr
        simp [hxl, hxr]
      · simp
  · have hc2 : cmp l r = false := by simpa using hc
    have hlkr2 : ∀ a ∈ kr.addrs, a ≠ l := fun a ha h => hlkr (h ▸ ha)
    cases kr with
    | leaf =>
      have hsub : (s.mem r).subheaps = none := hkr
      simp only [pheap_meld, hc2, meldShape, mem_tick, hsub, Bool.false_eq_true, if_false]
      refine ⟨⟨rfl, ⟨?_, ?_, ?_⟩, ?_⟩, ?_, ?_⟩
      · simp
      · simp only [mem_setSubheaps, mem_tick, if_true, if_neg hlr]
        exact rep_agree kl _ (fun a ha => by
          have : a ≠ r := fun h => hrkl (h ▸ ha)
          simp [this]) hkl
      · simp only [mem_setSubheaps, mem_tick, if_true, if_neg hlr]
        exact hnl
      · simp only [mem_setSubheaps, mem_tick, if_true]
        exact hnr
      · intro x _ hxr
        simp [hxr]
      · simp
    | cell c kc nc =>
      have hsub : (s.mem r).subheaps = some c := hkr.1
      simp only [pheap_meld, hc2, meldShape, mem_tick, hsub, Bool.false_eq_true, if_false]
      refine ⟨⟨rfl, ⟨?_, ?_, ?_⟩, ?_⟩, ?_, ?_⟩
      · simp
      · simp only [mem_setSubheaps, mem_setNext, mem_tick, if_true, if_neg hlr]
        exact rep_agree kl _ (fun a ha => by
          have h1 : a ≠ l := fun h => hlkl (h ▸ ha)
          have h2 : a ≠ r := fun h => hrkl (h ▸ ha)
          simp [h1, h2]) hkl
      · simp only [mem_setSubheaps, mem_setNext, mem_tick, if_true, if_neg hlr]
        have hk2 : Rep s.mem (some c) (.cell c kc nc) := by
          rw [← hsub]; exact hkr
        exact rep_agree _ _ (fun a ha => by
          have h1 : a ≠ l := hlkr2 a ha
          have h2 : a ≠ r := fun h => hrkr (h ▸ ha)
          simp [h1, h2]) hk2
      · simp only [mem_setSubheaps, mem_setNext, mem_tick, if_true, if_neg hrl]
        exact hnr
      · intro x hxl hxr
        simp [hxl, hxr]
      · simp

/-! ## Shape-level facts about meld and merge-pairs -/

theorem meldShape_single (cmp : Nat → Nat → Bool) (ta tb : Shape) (ha : ta.single)
    (hb : tb.single) : (meldShape cmp ta tb).single := by
  cases ta with
  | leaf => exact hb
  | cell l kl nl =>
    cases tb with
    | leaf => exact ha
    | cell r kr nr =>
      simp only [meldShape]
      split <;> rfl

theorem meldShape_perm (cmp : Nat → Nat → Bool) (ta tb : Shape) (ha : ta.single)
    (hb : tb.single) : (meldShape cmp ta tb).addrs.Perm (ta.addrs ++ tb.addrs) := by
  cases ta with
  | leaf => exact List.Perm.refl _
  | cell l kl nl =>
    cases tb with
    | leaf => simp [meldShape, Shape.addrs]
    | cell r kr nr =>
      have h1 : nl = .leaf := ha
      have h2 : nr = .leaf := hb
      subst h1 h2
      simp only [meldShape]
      split
      · simp only [Shape.addrs, List.append_nil, List.cons_append]
        refine List.Perm.cons _ ?_
        show ((r :: kr.addrs) ++ kl.addrs).Perm (kl.addrs ++ r :: kr.addrs)
        exact List.perm_append_comm
      · simp only [Shape.addrs, List.append_nil, List.cons_append]
        show (r :: ((l :: kl.addrs) ++ kr.addrs)).Perm ((l :: kl.addrs) ++ r :: kr.addrs)
        exact List.perm_middle.symm

theorem mergePairsShape_single (cmp : Nat → Nat → Bool) (t : Shape) :
    (mergePairsShape cmp t).single := by
  induction t using mergePairsShape.induct cmp with
  | case1 => trivial
  | case2 a k => rfl
  | case3 a k b kb rest ih =>
    simp only [mergePairsShape]
    exact meldShape_single cmp _ _
      (meldShape_single cmp (.cell a k .leaf) (.cell b kb .leaf) rfl rfl) ih

theorem mergePairsShape_perm (cmp : Nat → Nat → Bool) (t : Shape) :
    (mergePairsShape cmp t).addrs.Perm t.addrs := by
  induction t using mergePairsShape.induct cmp with
  | case1 => exact List.Perm.refl _
  | case2 a k => exact List.Perm.refl _
  | case3 a k b kb rest ih =>
    simp only [mergePairsShape]
    refine (meldShape_perm cmp _ _
      (meldShape_single cmp (.cell a k .leaf) (.cell b kb .leaf) rfl rfl)
      (mergePairsShape_single cmp rest)).trans ?_
    refine (List.Perm.append
      (meldShape_perm cmp (.cell a k .leaf) (.cell b kb .leaf) rfl rfl) ih).trans ?_
    simp [Shape.addrs]

theorem meldShape_cells_spine (cmp : Nat → Nat → Bool) (l r : Nat) (kl kr nl nr : Shape) :
    (meldShape cmp (.cell l kl nl) (.cell r kr nr)).spine.length = 1 := by
  simp only [meldShape]
  split <;> rfl

theorem mergePairsShape_spine (cmp : Nat → Nat → Bool) (t : Shape) :
    (mergePairsShape cmp t).spine.length = min 1 t.spine.length := by
  induction t using mergePairsShape.induct cmp with
  | case1 => rfl
  | case2 a k => rfl
  | case3 a k b kb rest ih =>
    simp only [mergePairsShape]
    have h1 : meldShape cmp (.cell a k .leaf) (.cell b kb .leaf)
        = .cell a (.cell b kb k) .leaf
      ∨ meldShape cmp (.cell a k .leaf) (.cell b kb .leaf)
        = .cell b (.cell a k kb) .leaf := by
      simp only [meldShape]
      split
      · exact Or.inl rfl
      · exact Or.inr rfl
    have h2 : ∀ (x : Nat) (kx : Shape),
        (meldShape cmp (.cell x kx .leaf) (mergePairsShape cmp rest)).spine.length = 1 := by
      intro x kx
      cases mergePairsShape cmp rest with
      | leaf => rfl
      | cell r kr nr => exact meldShape_cells_spine cmp x r kx kr .leaf nr
    rcases h1 with h | h
    · rw [h, h2]; simp [Shape.spine]
    · rw [h, h2]; simp [Shape.spine]

theorem spine_subset_addrs (t : Shape) : ∀ x ∈ t.spine, x ∈ t.addrs := by
  induction t with
  | leaf => intro x hx; exact hx
  | cell a k n _ ihn =>
    intro x hx
    simp only [Shape.spine, List.mem_cons] at hx
    simp only [Shape.addrs, List.mem_cons, List.mem_append]
    rcases hx with h | h
    · exact Or.inl h
    · exact Or.inr (Or.inr (ihn x h))

theorem head_mem_spine {t : Shape} {x : Nat} (h : t.head = some x) : x ∈ t.spine := by
  cases t with
  | leaf => cases h
  | cell a k n =>
    simp only [Shape.head, Option.some.injEq] at h
    simp [Shape.spine, h]

theorem mergePairsShape_head_spine (cmp : Nat → Nat → Bool) (t : Shape) (x : Nat)
    (h : (mergePairsShape cmp t).head = some x) : x ∈ t.spine := by
  induction t using mergePairsShape.induct cmp generalizing x with
  | case1 => cases h
  | case2 a k => exact head_mem_spine h
  | case3 a k b kb rest ih =>
    simp only [mergePairsShape] at h
    simp only [Shape.spine, List.mem_cons]
    simp only [meldShape] at h
    by_cases hc : cmp a b = true
    · simp only [hc, if_true] at h
      cases hm : mergePairsShape cmp rest with
      | leaf =>
        rw [hm] at h
        simp only [meldShape, Shape.head, Option.some.injEq] at h
        exact Or.inl h.symm
      | cell r kr nr =>
        rw [hm] at h
        simp only [meldShape] at h
        split at h
        · simp only [Shape.head, Option.some.injEq] at h
          exact Or.inl h.symm
        · simp only [Shape.head, Option.some.injEq] at h
          exact Or.inr (Or.inr (ih x (by rw [hm, ← h]; rfl)))
    · have hc2 : cmp a b = false := by simpa using hc
      simp only [hc2, Bool.false_eq_true, if_false] at h
      cases hm : mergePairsShape cmp rest with
      | leaf =>
        rw [hm] at h
        simp only [meldShape, Shape.head, Option.some.injEq] at h
        exact Or.inr (Or.inl h.symm)
      | cell r kr nr =>
        rw [hm] at h
        simp only [meldShape] at h
        split at h
        · simp only [Shape.head, Option.some.injEq] at h
          exact Or.inr (Or.inl h.symm)
        · simp only [Shape.head, Option.some.injEq] at h
          exact Or.inr (Or.inr (ih x (by rw [hm, ← h]; rfl)))

/-! ## Meld and merge-pairs on well-formed heaps -/

theorem meld_none_left (cmp : Nat → Nat → Bool) (b : Option Nat) (s : State) :
    pheap_meld cmp none b s = (b, s) := by
  cases b <;> rfl

theorem meld_none_right (cmp : Nat → Nat → Bool) (a : Option Nat) (s : State) :
    pheap_meld cmp a none s = (a, s) := by
  cases a <;> rfl

theorem meld_fst_cases (cmp : Nat → Nat → Bool) (l r : Nat) (s : State) :
    (pheap_meld cmp (some l) (some r) s).1 = some l
      ∨ (pheap_meld cmp (some l) (some r) s).1 = some r := by
  simp only [pheap_meld]
  split
  · exact Or.inl rfl
  · exact Or.inr rfl

/-- Meld of two well-formed heaps with disjoint nodes, either possibly empty. -/
theorem meld_wf (cmp : Nat → Nat → Bool) (s : State) (a b : Option Nat) (ta tb : Shape)
    (ha : WellFormed s.mem a ta) (hb : WellFormed s.mem b tb)
    (hd : (ta.addrs ++ tb.addrs).Nodup) :
    WellFormed (pheap_meld cmp a b s).2.mem (pheap_meld cmp a b s).1 (meldShape cmp ta tb)
      ∧ (∀ x, some x ≠ a → some x ≠ b → (pheap_meld cmp a b s).2.mem x = s.mem x)
      ∧ (pheap_meld cmp a b s).2.calls = s.calls + ta.spine.length * tb.spine.length := by
  cases ta with
  | leaf =>
    have : a = none := ha.rep
    subst this
    rw [meld_none_left]
    exact ⟨hb, fun _ _ _ => rfl, by simp [Shape.spine]⟩
  | cell l kl nl =>
    have hal : a = some l := ha.rep.1
    subst hal
    cases tb with
    | leaf =>
      have : b = none := hb.rep
      subst this
      rw [meld_none_right]
      exact ⟨ha, fun _ _ _ => rfl, by simp [Shape.spine]⟩
    | cell r kr nr =>
      have hbr : b = some r := hb.rep.1
      subst hbr
      have h1 : nl = .leaf := ha.single
      have h2 : nr = .leaf := hb.single
      subst h1 h2
      obtain ⟨hrep, hfr, hcalls⟩ := meld_cells cmp s l r kl kr ha.rep hb.rep hd
      refine ⟨⟨hrep, ?_, meldShape_single cmp _ _ ha.single hb.single⟩, ?_, ?_⟩
      · exact (meldShape_perm cmp _ _ ha.single hb.single).nodup_iff.mpr hd
      · intro x hx1 hx2
        exact hfr x (fun h => hx1 (by rw [h])) (fun h => hx2 (by rw [h]))
      · rw [hcalls]
        simp [Shape.spine]

/-- Merge-pairs on a represented sibling list of disjoint trees: with enough fuel it
returns a well-formed heap of the shape `mergePairsShape`, and writes only to nodes of
the sibling list. -/
theorem merge_pairs_rep (cmp : Nat → Nat → Bool) :
    ∀ (fuel : Nat) (t : Shape) (p : Option Nat) (s : State),
      Rep s.mem p t → t.addrs.Nodup → t.spine.length / 2 < fuel →
      ∃ s2, pheap_merge_pairs cmp fuel p s = .ok ((mergePairsShape cmp t).head, s2)
        ∧ WellFormed s2.mem (mergePairsShape cmp t).head (mergePairsShape cmp t)
        ∧ (∀ x, x ∉ t.spine → s2.mem x = s.mem x)
        ∧ s2.calls = s.calls + (t.spine.length - 1) := by
  intro fuel
  induction fuel with
  | zero => intro t p s _ _ h; omega
  | succ fuel ih =>
    intro t p s hrep hnd hfuel
    match t, hrep, hnd, hfuel with
    | .leaf, hrep, hnd, _ =>
      have : p = none := hrep
      subst this
      exact ⟨s, rfl, ⟨rfl, hnd, trivial⟩, fun _ _ => rfl, rfl⟩
    | .cell a k .leaf, hrep, hnd, _ =>
      obtain ⟨hp, hk, hn⟩ := hrep
      subst hp
      have hn2 : (s.mem a).next = none := hn
      refine ⟨s, ?_, ⟨⟨rfl, hk, hn⟩, hnd, rfl⟩, fun _ _ => rfl, rfl⟩
      simp only [pheap_merge_pairs, hn2, mergePairsShape, Shape.head]
    | .cell a k (.cell b kb rest), hrep, hnd, hfuel =>
      obtain ⟨hp, hk, hn⟩ := hrep
      subst hp
      obtain ⟨hnb, hkb, hrest⟩ := hn
      simp only [Shape.addrs, List.nodup_cons, List.mem_cons, List.mem_append,
        List.nodup_append, not_or, List.Disjoint] at hnd
      obtain ⟨⟨hak, hab, hakb, harest⟩, hndk, ⟨⟨hbkb, hbrest⟩, hndkb, hndrest, hd1⟩, hd2⟩ := hnd
      have hba : b ≠ a := fun h => hab h.symm
      have hbk : b ∉ k.addrs := fun h => hd2 h (Or.inl rfl)
      -- the state after the two assignments to `next`
      let s2 := (s.setNext a none).setNext b none
      have hs2a : s2.mem a = { s.mem a with next := none } := by
        simp [s2, hab]
      have hs2b : s2.mem b = { s.mem b with next := none } := by
        simp [s2, hba]
      have hs2o : ∀ x, x ≠ a → x ≠ b → s2.mem x = s.mem x := by
        intro x h1 h2
        simp [s2, h1, h2]
      have hra : Rep s2.mem (some a) (.cell a k .leaf) := by
        refine ⟨rfl, ?_, ?_⟩
        · rw [hs2a]
          exact rep_agree k _ (fun x hx => hs2o x (fun h => hak (h ▸ hx))
            (fun h => hbk (h ▸ hx))) hk
        · rw [hs2a]; rfl
      have hrb : Rep s2.mem (some b) (.cell b kb .leaf) := by
        refine ⟨rfl, ?_, ?_⟩
        · rw [hs2b]
          exact rep_agree kb _ (fun x hx => hs2o x (fun h => hakb (h ▸ hx))
            (fun h => hbkb (h ▸ hx))) hkb
        · rw [hs2b]; rfl
      have hnd2 : ((Shape.cell a k .leaf).addrs ++ (Shape.cell b kb .leaf).addrs).Nodup := by
        simp only [Shape.addrs, List.append_nil, List.cons_append, List.nodup_cons,
          List.mem_cons, List.mem_append, List.nodup_append, not_or, List.Disjoint]
        refine ⟨⟨hak, hab, hakb⟩, hndk, ⟨hbkb, hndkb⟩, ?_⟩
        intro x hx hx2
        exact hd2 hx (hx2.elim Or.inl (fun h => Or.inr (Or.inl h)))
      obtain ⟨hm1, hf1, hc1⟩ := meld_cells cmp s2 a b k kb hra hrb hnd2
      -- the recursive call on the rest of the list
      have hrest3 : Rep (pheap_meld cmp (some a) (some b) s2).2.mem (s.mem b).next rest := by
        refine rep_agree rest _ (fun x hx => ?_) hrest
        have hxa : x ≠ a := fun h => harest (h ▸ hx)
        have hxb : x ≠ b := fun h => hbrest (h ▸ hx)
        rw [hf1 x hxa hxb, hs2o x hxa hxb]
      have hfuel2 : rest.spine.length / 2 < fuel := by
        simp only [Shape.spine, List.length_cons] at hfuel
        omega
      obtain ⟨s4, hrun, hwf4, hf4, hc4⟩ := ih rest _ _ hrest3 hndrest hfuel2
      -- the first meld survives the recursive call
      have hm1wf : WellFormed s4.mem (pheap_meld cmp (some a) (some b) s2).1
          (meldShape cmp (.cell a k .leaf) (.cell b kb .leaf)) := by
        refine ⟨?_, ?_, meldShape_single cmp _ _ rfl rfl⟩
        · refine rep_agree _ _ (fun x hx => ?_) hm1
          apply hf4
          intro hsp
          have hx2 := (meldShape_perm cmp (.cell a k .leaf) (.cell b kb .leaf) rfl rfl).subset hx
          have hx3 := spine_subset_addrs rest x hsp
          simp only [Shape.addrs, List.append_nil, List.cons_append, List.mem_cons,
            List.mem_append] at hx2
          rcases hx2 with h | h | h | h
          · exact harest (h ▸ hx3)
          · exact hd2 h (Or.inr (Or.inr hx3))
          · exact hbrest (h ▸ hx3)
          · exact hd1 h hx3
        · exact (meldShape_perm cmp (.cell a k .leaf) (.cell b kb .leaf) rfl rfl).nodup_iff.mpr
            hnd2
      have hnd5 : ((meldShape cmp (.cell a k .leaf) (.cell b kb .leaf)).addrs
          ++ (mergePairsShape cmp rest).addrs).Nodup := by
        refine ((List.Perm.append
          (meldShape_perm cmp (.cell a k .leaf) (.cell b kb .leaf) rfl rfl)
          (mergePairsShape_perm cmp rest)).nodup_iff).mpr ?_
        simp only [Shape.addrs, List.append_nil, List.cons_append, List.nodup_cons,
          List.mem_cons, List.mem_append, List.nodup_append, not_or, List.Disjoint]
        refine ⟨⟨⟨hak, hab, hakb⟩, harest⟩, ⟨hndk, ⟨hbkb, hndkb⟩, ?_⟩, hndrest, ?_⟩
        · intro x hx hx2
          exact hd2 hx (hx2.elim Or.inl (fun h => Or.inr (Or.inl h)))
        · intro x hx hx2
          rcases hx with h | h | h
          · exact hd2 h (Or.inr (Or.inr hx2))
          · exact hbrest (h ▸ hx2)
          · exact hd1 h hx2
      obtain ⟨hwf5, hf5, hc5⟩ := meld_wf cmp s4 _ _ _ _ hm1wf hwf4 hnd5
      have hhead := rep_head hwf5.rep
      have hnext : (s.mem a).next = some b := hnb
      have hrestptr : ((s.setNext a none).mem b).next = (s.mem b).next := by
        simp [hba]
      refine ⟨(pheap_meld cmp (pheap_meld cmp (some a) (some b) s2).1
        (mergePairsShape cmp rest).head s4).2, ?_, ?_, ?_, ?_⟩
      · simp only [pheap_merge_pairs, hnext, hrestptr]
        rw [hrun]
        simp only [mergePairsShape]
        exact congrArg Except.ok (Prod.ext hhead rfl)
      · simp only [mergePairsShape]
        rw [← hhead]
        exact hwf5
      · intro x hx
        simp only [Shape.spine, List.mem_cons, not_or] at hx
        obtain ⟨hxa, hxb, hxr⟩ := hx
        have h1 : some x ≠ (pheap_meld cmp (some a) (some b) s2).1 := by
          intro h
          rcases meld_fst_cases cmp a b s2 with h2 | h2
          · rw [h2] at h; exact hxa (Option.some.inj h)
          · rw [h2] at h; exact hxb (Option.some.inj h)
        have h2 : some x ≠ (mergePairsShape cmp rest).head :=
          fun h => hxr (mergePairsShape_head_spine cmp rest x h.symm)
        rw [hf5 x h1 h2, hf4 x hxr, hf1 x hxa hxb, hs2o x hxa hxb]
      · rw [hc5, hc4, hc1, meldShape_cells_spine, mergePairsShape_spine]
        have : s2.calls = s.calls := rfl
        simp only [Shape.spine, List.length_cons, this]
        omega

/-! ## Insert, delete-min and visit on well-formed heaps -/

/-- Insert of a node that is not in the heap. -/
theorem insert_wf (cmp : Nat → Nat → Bool) (s : State) (h : Option Nat) (t : Shape) (e : Nat)
    (hwf : WellFormed s.mem h t) (he : e ∉ t.addrs) :
    WellFormed (pheap_insert cmp h e s).2.mem (pheap_insert cmp h e s).1
        (meldShape cmp (.cell e .leaf .leaf) t)
      ∧ (∀ x, x ≠ e → some x ≠ h → (pheap_insert cmp h e s).2.mem x = s.mem x) := by
  let s2 := (s.setSubheaps e none).setNext e none
  have hs2e : s2.mem e = { subheaps := none, next := none } := by
    simp [s2]
  have hs2o : ∀ x, x ≠ e → s2.mem x = s.mem x := by
    intro x hx
    simp [s2, hx]
  have hwe : WellFormed s2.mem (some e) (.cell e .leaf .leaf) := by
    refine ⟨⟨rfl, ?_, ?_⟩, by simp [Shape.addrs], rfl⟩
    · rw [hs2e]; rfl
    · rw [hs2e]; rfl
  have hwt : WellFormed s2.mem h t :=
    ⟨rep_agree t _ (fun x hx => hs2o x (fun hxe => he (hxe ▸ hx))) hwf.rep, hwf.nodup, hwf.single⟩
  have hnd : ((Shape.cell e .leaf .leaf).addrs ++ t.addrs).Nodup := by
    simp only [Shape.addrs, List.append_nil, List.cons_append, List.nil_append,
      List.nodup_cons]
    exact ⟨he, hwf.nodup⟩
  obtain ⟨h1, h2, _⟩ := meld_wf cmp s2 (some e) h _ _ hwe hwt hnd
  refine ⟨h1, ?_⟩
  intro x hxe hxh
  have : (pheap_insert cmp h e s).2.mem x = s2.mem x :=
    h2 x (fun hh => hxe (Option.some.inj hh)) hxh
  rw [this, hs2o x hxe]

/-- Delete-min on a well-formed non-empty heap, with enough fuel. -/
theorem delete_min_wf (cmp : Nat → Nat → Bool) (s : State) (r : Nat) (k : Shape) (fuel : Nat)
    (hwf : WellFormed s.mem (some r) (.cell r k .leaf)) (hfuel : k.spine.length / 2 < fuel) :
    ∃ s2, pheap_delete_min cmp fuel (some r) s = .ok ((mergePairsShape cmp k).head, s2)
      ∧ WellFormed s2.mem (mergePairsShape cmp k).head (mergePairsShape cmp k)
      ∧ (∀ x, x ∉ k.spine → s2.mem x = s.mem x) := by
  have hnd : k.addrs.Nodup := by
    have := hwf.nodup
    simp only [Shape.addrs, List.append_nil, List.nodup_cons] at this
    exact this.2
  obtain ⟨s2, h1, h2, h3, _⟩ := merge_pairs_rep cmp fuel k _ s hwf.rep.2.1 hnd hfuel
  exact ⟨s2, h1, h2, h3⟩

theorem length_addrs (t : Shape) : t.addrs.length = t.size := by
  induction t with
  | leaf => rfl
  | cell a k n ihk ihn =>
    simp only [Shape.addrs, List.length_cons, List.length_append, ihk, ihn, Shape.size]

theorem length_spine_le (t : Shape) : t.spine.length ≤ t.size := by
  induction t with
  | leaf => exact Nat.le_refl _
  | cell a k n _ ihn =>
    simp only [Shape.spine, List.length_cons, Shape.size]
    omega

/-- Visit of a represented shape: with enough fuel the visitor sees the nodes of the
shape, each once, children before siblings. -/
theorem visit_rep (fuel : Nat) :
    ∀ (t : Shape) (p : Option Nat) (s : State), Rep s.mem p t → t.size < fuel →
      pheap_visit_heap fuel p s = .ok t.addrs := by
  induction fuel with
  | zero => intro t p s _ h; omega
  | succ fuel ih =>
    intro t p s hrep hf
    cases t with
    | leaf =>
      have : p = none := hrep
      subst this
      rfl
    | cell a k n =>
      obtain ⟨hp, hk, hn⟩ := hrep
      subst hp
      simp only [Shape.size] at hf
      have h1 := ih k _ s hk (by omega)
      have h2 := ih n _ s hn (by omega)
      simp only [pheap_visit_heap, h1, h2, Shape.addrs]

/-! ## Heap order -/

theorem ordered_drop_parent (R : Nat → Nat → Prop) (t : Shape) :
    ∀ par, t.ordered R par → t.ordered R none := by
  induction t with
  | leaf => intro _ _; trivial
  | cell a k n _ ihn =>
    intro par h
    exact ⟨(fun p hp => by cases hp), h.2.1, ihn par h.2.2⟩

theorem ordered_meldShape (cmp : Nat → Nat → Bool)
    (hasym : ∀ a b, cmp a b = true → cmp b a = false) (ta tb : Shape)
    (ha : ta.ordered (NotBefore cmp) none) (hb : tb.ordered (NotBefore cmp) none)
    (hsa : ta.single) (hsb : tb.single) :
    (meldShape cmp ta tb).ordered (NotBefore cmp) none := by
  cases ta with
  | leaf => exact hb
  | cell l kl nl =>
    cases tb with
    | leaf => exact ha
    | cell r kr nr =>
      simp only [meldShape]
      by_cases hc : cmp l r = true
      · simp only [hc, if_true]
        refine ⟨(fun p hp => by cases hp), ⟨fun p hp => ?_, hb.2.1, ha.2.1⟩, trivial⟩
        cases hp
        exact hasym l r hc
      · have hc2 : cmp l r = false := by simpa using hc
        simp only [hc2, Bool.false_eq_true, if_false]
        refine ⟨(fun p hp => by cases hp), ⟨fun p hp => ?_, ha.2.1, hb.2.1⟩, trivial⟩
        cases hp
        exact hc2

theorem ordered_mergePairsShape (cmp : Nat → Nat → Bool)
    (hasym : ∀ a b, cmp a b = true → cmp b a = false) (t : Shape)
    (h : t.ordered (NotBefore cmp) none) :
    (mergePairsShape cmp t).ordered (NotBefore cmp) none := by
  induction t using mergePairsShape.induct cmp with
  | case1 => trivial
  | case2 a k => exact h
  | case3 a k b kb rest ih =>
    simp only [mergePairsShape]
    have h1 : (Shape.cell a k .leaf).ordered (NotBefore cmp) none :=
      ⟨(fun p hp => by cases hp), h.2.1, trivial⟩
    have h2 : (Shape.cell b kb .leaf).ordered (NotBefore cmp) none :=
      ⟨(fun p hp => by cases hp), h.2.2.2.1, trivial⟩
    exact ordered_meldShape cmp hasym _ _
      (ordered_meldShape cmp hasym _ _ h1 h2 rfl rfl) (ih h.2.2.2.2)
      (meldShape_single cmp (.cell a k .leaf) (.cell b kb .leaf) rfl rfl)
      (mergePairsShape_single cmp rest)

theorem swo_asymm {cmp : Nat → Nat → Bool} (h : StrictWeakOrder cmp) (a b : Nat)
    (hab : cmp a b = true) : cmp b a = false := by
  cases hba : cmp b a with
  | false => rfl
  | true =>
    have := h.trans a b a hab hba
    rw [h.irrefl a] at this
    cases this

/-- Negative transitivity of a strict weak ordering. -/
theorem swo_not_before_trans {cmp : Nat → Nat → Bool} (h : StrictWeakOrder cmp) (x a p : Nat)
    (hxa : cmp x a = false) (hap : cmp a p = false) : cmp x p = false := by
  cases hxp : cmp x p with
  | false => rfl
  | true =>
    exfalso
    have hax : cmp a x = false := by
      cases hax : cmp a x with
      | false => rfl
      | true =>
        have := h.trans a x p hax hxp
        rw [hap] at this
        cases this
    have hpa : cmp p a = false := by
      cases hpa : cmp p a with
      | false => rfl
      | true =>
        have := h.trans x p a hxp hpa
        rw [hxa] at this
        cases this
    have := (h.incomp x a p hxa hax hap hpa).1
    rw [hxp] at this
    cases this

/-- In an ordered shape below parent `p`, no node is strictly preferred to `p`. -/
theorem ordered_above (cmp : Nat → Nat → Bool) (hs : StrictWeakOrder cmp) (t : Shape) :
    ∀ p, t.ordered (NotBefore cmp) (some p) → ∀ x ∈ t.addrs, cmp x p = false := by
  induction t with
  | leaf => intro p _ x hx; cases hx
  | cell a k n ihk ihn =>
    intro p h x hx
    obtain ⟨ha, hk, hn⟩ := h
    have hap : cmp a p = false := ha p rfl
    simp only [Shape.addrs, List.mem_cons, List.mem_append] at hx
    rcases hx with hx | hx | hx
    · rw [hx]; exact hap
    · exact swo_not_before_trans hs x a p (ihk a hk x hx) hap
    · exact ihn p hn x hx

/-! ## Fuel -/

/-- Two successful runs of merge-pairs from the same state agree, whatever the fuel. -/
theorem merge_pairs_fuel (cmp : Nat → Nat → Bool) :
    ∀ (f1 f2 : Nat) (p : Option Nat) (s : State) (r1 r2 : Option Nat × State),
      pheap_merge_pairs cmp f1 p s = .ok r1 → pheap_merge_pairs cmp f2 p s = .ok r2 →
      r1 = r2 := by
  intro f1
  induction f1 with
  | zero => intro f2 p s r1 r2 h1 _; cases h1
  | succ f1 ih =>
    intro f2 p s r1 r2 h1 h2
    cases f2 with
    | zero => cases h2
    | succ f2 =>
      cases p with
      | none =>
        simp only [pheap_merge_pairs, Except.ok.injEq] at h1 h2
        rw [← h1, ← h2]
      | some l =>
        cases hn : (s.mem l).next with
        | none =>
          simp only [pheap_merge_pairs, hn, Except.ok.injEq] at h1 h2
          rw [← h1, ← h2]
        | some n =>
          simp only [pheap_merge_pairs, hn] at h1 h2
          split at h1
          · cases h1
          · rename_i second1 hrun1
            split at h2
            · cases h2
            · rename_i second2 hrun2
              have := ih _ _ _ _ _ hrun1 hrun2
              subst this
              simp only [Except.ok.injEq] at h1 h2
              rw [← h1, ← h2]

theorem drain_none (cmp : Nat → Nat → Bool) (fuel : Nat) (s : State) :
    drain cmp fuel none s = .ok [] := by
  cases fuel <;> rfl

theorem wf_leaf_iff {mem : Nat → PHeap} {h : Option Nat} {t : Shape}
    (hwf : WellFormed mem h t) : h = none ↔ t = .leaf := by
  cases t with
  | leaf => exact ⟨fun _ => rfl, fun _ => hwf.rep⟩
  | cell a k n =>
    constructor
    · intro hh
      have := hwf.rep.1
      rw [hh] at this
      cases this
    · intro hh
      cases hh

/-- A well-formed heap at a non-empty reference is one tree rooted there. -/
theorem wf_some {mem : Nat → PHeap} {r : Nat} {t : Shape}
    (hwf : WellFormed mem (some r) t) : ∃ k, t = .cell r k .leaf := by
  cases t with
  | leaf => cases (hwf.rep : some r = none)
  | cell a k n =>
    have h1 : some r = some a := hwf.rep.1
    have h2 : n = .leaf := hwf.single
    cases h1
    subst h2
    exact ⟨k, rfl⟩

theorem size_mergePairsShape (cmp : Nat → Nat → Bool) (t : Shape) :
    (mergePairsShape cmp t).size = t.size := by
  rw [← length_addrs, ← length_addrs]
  exact (mergePairsShape_perm cmp t).length_eq

/-! ## Reachable heaps -/

/-- The invariant of reachable heaps: the memory holds a well-formed tree whose nodes are
the recorded elements, ordered whenever the comparator is asymmetric. -/
theorem reachable_inv (cmp : Nat → Nat → Bool) (h : Option Nat) (s : State) (es : List Nat)
    (hr : Reachable cmp h s es) :
    ∃ t, WellFormed s.mem h t ∧ t.addrs.Perm es
      ∧ ((∀ a b, cmp a b = true → cmp b a = false) → t.ordered (NotBefore cmp) none) := by
  induction hr with
  | empty s => exact ⟨.leaf, ⟨rfl, List.nodup_nil, trivial⟩, List.Perm.refl _, fun _ => trivial⟩
  | insert h s es e _ he ih =>
    obtain ⟨t, hwf, hperm, hord⟩ := ih
    have he2 : e ∉ t.addrs := fun hx => he (hperm.subset hx)
    refine ⟨meldShape cmp (.cell e .leaf .leaf) t, (insert_wf cmp s h t e hwf he2).1, ?_, ?_⟩
    · refine (meldShape_perm cmp (.cell e .leaf .leaf) t rfl hwf.single).trans ?_
      simp only [Shape.addrs, List.append_nil, List.cons_append, List.nil_append]
      exact List.Perm.cons e hperm
    · intro hasym
      exact ordered_meldShape cmp hasym (.cell e .leaf .leaf) t
        ⟨(fun p hp => by cases hp), trivial, trivial⟩ (hord hasym) rfl hwf.single
  | deleteMin r s es fuel h2 s2 _ hrun ih =>
    obtain ⟨t, hwf, hperm, hord⟩ := ih
    obtain ⟨k, hk⟩ := wf_some hwf
    subst hk
    obtain ⟨s3, hrun3, hwf3, _⟩ :=
      delete_min_wf cmp s r k (k.spine.length / 2 + 1) hwf (Nat.lt_succ_self _)
    have heq : (h2, s2) = ((mergePairsShape cmp k).head, s3) :=
      merge_pairs_fuel cmp _ _ _ _ _ _ hrun hrun3
    simp only [Prod.mk.injEq] at heq
    obtain ⟨hh, hs⟩ := heq
    subst hh hs
    refine ⟨mergePairsShape cmp k, hwf3, ?_, ?_⟩
    · refine (mergePairsShape_perm cmp k).trans ?_
      have := hperm.erase r
      simpa [Shape.addrs] using this
    · intro hasym
      exact ordered_mergePairsShape cmp hasym k
        (ordered_drop_parent _ k (some r) (hord hasym).2.1)

/-- Draining a well-formed heap returns its nodes, each once; under a strict weak ordering
and heap order, no later element is strictly preferred to an earlier one. -/
theorem drain_wf (cmp : Nat → Nat → Bool) :
    ∀ (fuel : Nat) (t : Shape) (h : Option Nat) (s : State),
      WellFormed s.mem h t → t.size ≤ fuel →
      ∃ out, drain cmp fuel h s = .ok out ∧ out.Perm t.addrs
        ∧ (StrictWeakOrder cmp → t.ordered (NotBefore cmp) none →
            out.Pairwise (fun a b => cmp b a = false)) := by
  intro fuel
  induction fuel with
  | zero =>
    intro t h s hwf hf
    cases t with
    | leaf =>
      have : h = none := hwf.rep
      subst this
      exact ⟨[], rfl, List.Perm.refl _, fun _ _ => List.Pairwise.nil⟩
    | cell a k n => simp only [Shape.size] at hf; omega
  | succ fuel ih =>
    intro t h s hwf hf
    cases t with
    | leaf =>
      have : h = none := hwf.rep
      subst this
      exact ⟨[], rfl, List.Perm.refl _, fun _ _ => List.Pairwise.nil⟩
    | cell a k n =>
      have hh : h = some a := hwf.rep.1
      have hn : n = .leaf := hwf.single
      subst hh hn
      simp only [Shape.size] at hf
      have hsp := length_spine_le k
      obtain ⟨s2, hrun, hwf2, _⟩ := delete_min_wf cmp s a k (fuel + 1) hwf (by omega)
      obtain ⟨out, hd, hp, hsorted⟩ := ih (mergePairsShape cmp k) _ s2 hwf2
        (by rw [size_mergePairsShape]; omega)
      refine ⟨a :: out, ?_, ?_, ?_⟩
      · simp only [drain, hrun, hd]
      · simp only [Shape.addrs, List.append_nil]
        exact List.Perm.cons a (hp.trans (mergePairsShape_perm cmp k))
      · intro hs hord
        refine List.Pairwise.cons ?_ ?_
        · intro x hx
          exact ordered_above cmp hs k a hord.2.1 x
            ((hp.trans (mergePairsShape_perm cmp k)).subset hx)
        · exact hsorted hs (ordered_mergePairsShape cmp (swo_asymm hs) k
            (ordered_drop_parent _ k (some a) hord.2.1))

/-! ## Auxiliary facts for the claims -/

theorem swo_keyCmp (v : Nat → Nat) : StrictWeakOrder (keyCmp v) := by
  refine ⟨?_, ?_, ?_⟩
  · intro a
    simp [keyCmp]
  · intro a b c h1 h2
    simp only [keyCmp, decide_eq_true_eq] at h1 h2 ⊢
    omega
  · intro a b c h1 h2 h3 h4
    simp only [keyCmp, decide_eq_false_iff_not] at h1 h2 h3 h4 ⊢
    omega

theorem reachable_insertAll (cmp : Nat → Nat → Bool) :
    ∀ (es : List Nat) (h : Option Nat) (s : State) (acc : List Nat),
      Reachable cmp h s acc → (es ++ acc).Nodup →
      Reachable cmp (insertAll cmp es h s).1 (insertAll cmp es h s).2 (es.reverse ++ acc) := by
  intro es
  induction es with
  | nil => intro h s acc hr _; exact hr
  | cons e es ih =>
    intro h s acc hr hnd
    have hnd2 : (es ++ e :: acc).Nodup :=
      (List.perm_middle.nodup_iff).mpr (by simpa using hnd)
    have he : e ∉ acc := by
      simp only [List.cons_append, List.nodup_cons, List.mem_append, not_or] at hnd
      exact hnd.1.2
    have := ih _ _ (e :: acc) (Reachable.insert h s acc e hr he) hnd2
    simpa [insertAll] using this

theorem onList_spine {mem : Nat → PHeap} (t : Shape) :
    ∀ p c, Rep mem p t → (OnList mem p c ↔ c ∈ t.spine) := by
  induction t with
  | leaf =>
    intro p c hrep
    have : p = none := hrep
    subst this
    constructor
    · intro h; cases h
    · intro h; cases h
  | cell a k n _ ihn =>
    intro p c hrep
    obtain ⟨hp, _, hn⟩ := hrep
    subst hp
    simp only [Shape.spine, List.mem_cons]
    constructor
    · intro h
      cases h with
      | head => exact Or.inl rfl
      | tail _ _ h2 => exact Or.inr ((ihn _ c hn).mp h2)
    · intro h
      rcases h with h | h
      · rw [h]; exact OnList.head a
      · exact OnList.tail a c ((ihn _ c hn).mpr h)

theorem ordered_spine (R : Nat → Nat → Prop) (t : Shape) :
    ∀ p, t.ordered R (some p) → ∀ c ∈ t.spine, R p c := by
  induction t with
  | leaf => intro p _ c hc; cases hc
  | cell a k n _ ihn =>
    intro p h c hc
    simp only [Shape.spine, List.mem_cons] at hc
    rcases hc with hc | hc
    · rw [hc]; exact h.1 p rfl
    · exact ihn p h.2.2 c hc

/-- The child list of a node of a represented shape is represented, and ordered below
that node when the shape is ordered. -/
theorem rep_children (R : Nat → Nat → Prop) {mem : Nat → PHeap} (x : Nat) (t : Shape) :
    ∀ p par, Rep mem p t → x ∈ t.addrs →
      ∃ k, Rep mem (mem x).subheaps k ∧ (t.ordered R par → k.ordered R (some x)) := by
  induction t with
  | leaf => intro p par _ hx; cases hx
  | cell a k n ihk ihn =>
    intro p par hrep hx
    obtain ⟨_, hk, hn⟩ := hrep
    simp only [Shape.addrs, List.mem_cons, List.mem_append] at hx
    rcases hx with hx | hx | hx
    · subst hx
      exact ⟨k, hk, fun ho => ho.2.1⟩
    · obtain ⟨k2, h1, h2⟩ := ihk _ (some a) hk hx
      exact ⟨k2, h1, fun ho => h2 ho.2.1⟩
    · obtain ⟨k2, h1, h2⟩ := ihn _ par hn hx
      exact ⟨k2, h1, fun ho => h2 ho.2.2⟩

/-- Extracting `k` roots from a well-formed heap with at least `k` nodes succeeds and
leaves a well-formed heap holding the other nodes. -/
theorem extractN_wf (cmp : Nat → Nat → Bool) (fuel : Nat) :
    ∀ (k : Nat) (t : Shape) (h : Option Nat) (s : State),
      WellFormed s.mem h t → k ≤ t.size → t.size ≤ fuel →
      ∃ out h2 s2 t2, extractN cmp fuel k h s = .ok (out, h2, s2)
        ∧ WellFormed s2.mem h2 t2 ∧ (out ++ t2.addrs).Perm t.addrs := by
  intro k
  induction k with
  | zero =>
    intro t h s hwf _ _
    exact ⟨[], h, s, t, rfl, hwf, List.Perm.refl _⟩
  | succ k ih =>
    intro t h s hwf hk hf
    cases t with
    | leaf => simp only [Shape.size] at hk; omega
    | cell a c n =>
      have hh : h = some a := hwf.rep.1
      have hn : n = .leaf := hwf.single
      subst hh hn
      simp only [Shape.size] at hk hf
      have hsp := length_spine_le c
      obtain ⟨s2, hrun, hwf2, _⟩ := delete_min_wf cmp s a c fuel hwf (by omega)
      obtain ⟨out, h3, s3, t3, hx, hwf3, hp⟩ := ih (mergePairsShape cmp c) _ s2 hwf2
        (by rw [size_mergePairsShape]; omega) (by rw [size_mergePairsShape]; omega)
      refine ⟨a :: out, h3, s3, t3, ?_, hwf3, ?_⟩
      · simp only [extractN, hrun, hx]
      · simp only [Shape.addrs, List.append_nil, List.cons_append]
        exact List.Perm.cons a (hp.trans (mergePairsShape_perm cmp c))

/-- The heap built by inserting distinct nodes into the empty heap is well formed and
holds exactly those nodes. -/
theorem insertAll_wf (cmp : Nat → Nat → Bool) (s0 : State) (es : List Nat) (hnd : es.Nodup) :
    ∃ t, WellFormed (insertAll cmp es none s0).2.mem (insertAll cmp es none s0).1 t
      ∧ t.addrs.Perm es := by
  have hr := reachable_insertAll cmp es none s0 [] (Reachable.empty s0) (by simpa using hnd)
  obtain ⟨t, hwf, hperm, _⟩ := reachable_inv cmp _ _ _ hr
  refine ⟨t, hwf, hperm.trans ?_⟩
  simp

theorem extractN_length (cmp : Nat → Nat → Bool) (fuel : Nat) :
    ∀ (k : Nat) (h : Option Nat) (s : State) (res : List Nat × Option Nat × State),
      extractN cmp fuel k h s = .ok res → res.1.length = k := by
  intro k
  induction k with
  | zero =>
    intro h s res hx
    simp only [extractN, Except.ok.injEq] at hx
    rw [← hx]; rfl
  | succ k ih =>
    intro h s res hx
    cases h with
    | none => simp only [extractN] at hx; cases hx
    | some r =>
      simp only [extractN] at hx
      split at hx
      · cases hx
      · rename_i res1 hrun
        split at hx
        · cases hx
        · rename_i out h2 s2 hx2
          simp only [Except.ok.injEq] at hx
          rw [← hx]
          simp only [List.length_cons]
          rw [← ih _ _ _ hx2]

theorem state_ext (s t : State) (hm : s.mem = t.mem) (hc : s.calls = t.calls) : s = t := by
  cases s
  cases t
  simp only [State.mk.injEq]
  exact ⟨hm, hc⟩

/-- Two memories that hold the same shape at the same reference agree on its nodes. -/
theorem rep_determines {mem mem2 : Nat → PHeap} (t : Shape) :
    ∀ p, Rep mem p t → Rep mem2 p t → ∀ x ∈ t.addrs, mem x = mem2 x := by
  induction t with
  | leaf => intro p _ _ x hx; cases hx
  | cell a k n ihk ihn =>
    intro p h1 h2 x hx
    obtain ⟨_, hk1, hn1⟩ := h1
    obtain ⟨_, hk2, hn2⟩ := h2
    have e1 : (mem a).subheaps = (mem2 a).subheaps := (rep_head hk1).trans (rep_head hk2).symm
    have e2 : (mem a).next = (mem2 a).next := (rep_head hn1).trans (rep_head hn2).symm
    have e3 : mem a = mem2 a := by
      cases hma : mem a
      cases hmb : mem2 a
      rw [hma, hmb] at e1 e2
      simp only at e1 e2
      rw [e1, e2]
    simp only [Shape.addrs, List.mem_cons, List.mem_append] at hx
    rcases hx with hx | hx | hx
    · rw [hx]; exact e3
    · exact ihk _ hk1 (e1 ▸ hk2) x hx
    · exact ihn _ hn1 (e2 ▸ hn2) x hx

/-- Merge-pairs from two states that agree on the nodes of the list (and on the call count)
returns the same reference, and final states that agree on those nodes. -/
theorem merge_pairs_indep (cmp : Nat → Nat → Bool) (fuel : Nat) (t : Shape) (p : Option Nat)
    (s s' : State) (hrep : Rep s.mem p t) (hnd : t.addrs.Nodup)
    (hfuel : t.spine.length / 2 < fuel) (hag : ∀ x ∈ t.addrs, s'.mem x = s.mem x)
    (hcalls : s'.calls = s.calls) :
    ∃ h2 s2 s2', pheap_merge_pairs cmp fuel p s = .ok (h2, s2)
      ∧ pheap_merge_pairs cmp fuel p s' = .ok (h2, s2')
      ∧ s2'.calls = s2.calls
      ∧ (∀ x ∈ t.addrs, s2'.mem x = s2.mem x)
      ∧ (∀ x, x ∉ t.spine → s2.mem x = s.mem x ∧ s2'.mem x = s'.mem x) := by
  obtain ⟨s2, hrun, hwf, hfr, hc⟩ := merge_pairs_rep cmp fuel t p s hrep hnd hfuel
  obtain ⟨s2', hrun', hwf', hfr', hc'⟩ :=
    merge_pairs_rep cmp fuel t p s' (rep_agree t p hag hrep) hnd hfuel
  refine ⟨_, s2, s2', hrun, hrun', by rw [hc, hc', hcalls], ?_, fun x hx => ⟨hfr x hx, hfr' x hx⟩⟩
  intro x hx
  exact rep_determines _ _ hwf'.rep hwf.rep x ((mergePairsShape_perm cmp t).symm.subset hx)

/-! ## Evaluation order in merge-pairs -/

/-- Merge-pairs with the other evaluation order, on a represented sibling list of disjoint
trees: the same shape, frame and call count as `merge_pairs_rep`. -/
theorem merge_pairs_rtl_rep (cmp : Nat → Nat → Bool) :
    ∀ (fuel : Nat) (t : Shape) (p : Option Nat) (s : State),
      Rep s.mem p t → t.addrs.Nodup → t.spine.length / 2 < fuel →
      ∃ s2, pheap_merge_pairs_rtl cmp fuel p s = .ok ((mergePairsShape cmp t).head, s2)
        ∧ WellFormed s2.mem (mergePairsShape cmp t).head (mergePairsShape cmp t)
        ∧ (∀ x, x ∉ t.spine → s2.mem x = s.mem x)
        ∧ s2.calls = s.calls + (t.spine.length - 1) := by
  intro fuel
  induction fuel with
  | zero => intro t p s _ _ h; omega
  | succ fuel ih =>
    intro t p s hrep hnd hfuel
    match t, hrep, hnd, hfuel with
    | .leaf, hrep, hnd, _ =>
      have : p = none := hrep
      subst this
      exact ⟨s, rfl, ⟨rfl, hnd, trivial⟩, fun _ _ => rfl, rfl⟩
    | .cell a k .leaf, hrep, hnd, _ =>
      obtain ⟨hp, hk, hn⟩ := hrep
      subst hp
      have hn2 : (s.mem a).next = none := hn
      refine ⟨s, ?_, ⟨⟨rfl, hk, hn⟩, hnd, rfl⟩, fun _ _ => rfl, rfl⟩
      simp only [pheap_merge_pairs_rtl, hn2, mergePairsShape, Shape.head]
    | .cell a k (.cell b kb rest), hrep, hnd, hfuel =>
      obtain ⟨hp, hk, hn⟩ := hrep
      subst hp
      obtain ⟨hnb, hkb, hrest⟩ := hn
      simp only [Shape.addrs, List.nodup_cons, List.mem_cons, List.mem_append,
        List.nodup_append, not_or, List.Disjoint] at hnd
      obtain ⟨⟨hak, hab, hakb, harest⟩, hndk, ⟨⟨hbkb, hbrest⟩, hndkb, hndrest, hd1⟩, hd2⟩ := hnd
      have hba : b ≠ a := fun h => hab h.symm
      have hbk : b ∉ k.addrs := fun h => hd2 h (Or.inl rfl)
      -- the state after the two assignments to `next`
      let s2 := (s.setNext a none).setNext b none
      have hs2a : s2.mem a = { s.mem a with next := none } := by
        simp [s2, hab]
      have hs2b : s2.mem b = { s.mem b with next := none } := by
        simp [s2, hba]
      have hs2o : ∀ x, x ≠ a → x ≠ b → s2.mem x = s.mem x := by
        intro x h1 h2
        simp [s2, h1, h2]
      have hra : Rep s2.mem (some a) (.cell a k .leaf) := by
        refine ⟨rfl, ?_, ?_⟩
        · rw [hs2a]
          exact rep_agree k _ (fun x hx => hs2o x (fun h => hak (h ▸ hx))
            (fun h => hbk (h ▸ hx))) hk
        · rw [hs2a]; rfl
      have hrb : Rep s2.mem (some b) (.cell b kb .leaf) := by
        refine ⟨rfl, ?_, ?_⟩
        · rw [hs2b]
          exact rep_agree kb _ (fun x hx => hs2o x (fun h => hakb (h ▸ hx))
            (fun h => hbkb (h ▸ hx))) hkb
        · rw [hs2b]; rfl
      have hnd2 : ((Shape.cell a k .leaf).addrs ++ (Shape.cell b kb .leaf).addrs).Nodup := by
        simp only [Shape.addrs, List.append_nil, List.cons_append, List.nodup_cons,
          List.mem_cons, List.mem_append, List.nodup_append, not_or, List.Disjoint]
        refine ⟨⟨hak, hab, hakb⟩, hndk, ⟨hbkb, hndkb⟩, ?_⟩
        intro x hx hx2
        exact hd2 hx (hx2.elim Or.inl (fun h => Or.inr (Or.inl h)))
      -- the recursive call on the rest of the list comes first
      have hrest3 : Rep s2.mem (s.mem b).next rest := by
        refine rep_agree rest _ (fun x hx => ?_) hrest
        exact hs2o x (fun h => harest (h ▸ hx)) (fun h => hbrest (h ▸ hx))
      have hfuel2 : rest.spine.length / 2 < fuel := by
        simp only [Shape.spine, List.length_cons] at hfuel
        omega
      obtain ⟨s4, hrun, hwf4r, hf4, hc4⟩ := ih rest _ _ hrest3 hndrest hfuel2
      -- the first two trees are untouched by the recursive call
      have hra4 : Rep s4.mem (some a) (.cell a k .leaf) := by
        refine rep_agree _ _ (fun x hx => ?_) hra
        apply hf4
        intro hsp
        have hx3 := spine_subset_addrs rest x hsp
        simp only [Shape.addrs, List.append_nil, List.mem_cons] at hx
        rcases hx with h | h
        · exact harest (h ▸ hx3)
        · exact hd2 h (Or.inr (Or.inr hx3))
      have hrb4 : Rep s4.mem (some b) (.cell b kb .leaf) := by
        refine rep_agree _ _ (fun x hx => ?_) hrb
        apply hf4
        intro hsp
        have hx3 := spine_subset_addrs rest x hsp
        simp only [Shape.addrs, List.append_nil, List.mem_cons] at hx
        rcases hx with h | h
        · exact hbrest (h ▸ hx3)
        · exact hd1 h hx3
      obtain ⟨hm1, hf1, hc1⟩ := meld_cells cmp s4 a b k kb hra4 hrb4 hnd2
      have hm1wf : WellFormed (pheap_meld cmp (some a) (some b) s4).2.mem
          (pheap_meld cmp (some a) (some b) s4).1
          (meldShape cmp (.cell a k .leaf) (.cell b kb .leaf)) :=
        ⟨hm1, (meldShape_perm cmp (.cell a k .leaf) (.cell b kb .leaf) rfl rfl).nodup_iff.mpr
          hnd2, meldShape_single cmp _ _ rfl rfl⟩
      have hwf4 : WellFormed (pheap_meld cmp (some a) (some b) s4).2.mem
          (mergePairsShape cmp rest).head (mergePairsShape cmp rest) := by
        refine ⟨rep_agree _ _ (fun x hx => ?_) hwf4r.rep, hwf4r.nodup, hwf4r.single⟩
        have hx2 := (mergePairsShape_perm cmp rest).subset hx
        exact hf1 x (fun h => harest (h ▸ hx2)) (fun h => hbrest (h ▸ hx2))
      have hnd5 : ((meldShape cmp (.cell a k .leaf) (.cell b kb .leaf)).addrs
          ++ (mergePairsShape cmp rest).addrs).Nodup := by
        refine ((List.Perm.append
          (meldShape_perm cmp (.cell a k .leaf) (.cell b kb .leaf) rfl rfl)
          (mergePairsShape_perm cmp rest)).nodup_iff).mpr ?_
        simp only [Shape.addrs, List.append_nil, List.cons_append, List.nodup_cons,
          List.mem_cons, List.mem_append, List.nodup_append, not_or, List.Disjoint]
        refine ⟨⟨⟨hak, hab, hakb⟩, harest⟩, ⟨hndk, ⟨hbkb, hndkb⟩, ?_⟩, hndrest, ?_⟩
        · intro x hx hx2
          exact hd2 hx (hx2.elim Or.inl (fun h => Or.inr (Or.inl h)))
        · intro x hx hx2
          rcases hx with h | h | h
          · exact hd2 h (Or.inr (Or.inr hx2))
          · exact hbrest (h ▸ hx2)
          · exact hd1 h hx2
      obtain ⟨hwf5, hf5, hc5⟩ := meld_wf cmp _ _ _ _ _ hm1wf hwf4 hnd5
      have hhead := rep_head hwf5.rep
      have hnext : (s.mem a).next = some b := hnb
      have hrestptr : ((s.setNext a none).mem b).next = (s.mem b).next := by
        simp [hba]
      refine ⟨(pheap_meld cmp (pheap_meld cmp (some a) (some b) s4).1
        (mergePairsShape cmp rest).head (pheap_meld cmp (some a) (some b) s4).2).2, ?_, ?_, ?_, ?_⟩
      · simp only [pheap_merge_pairs_rtl, hnext, hrestptr]
        rw [hrun]
        simp only [mergePairsShape]
        exact congrArg Except.ok (Prod.ext hhead rfl)
      · simp only [mergePairsShape]
        rw [← hhead]
        exact hwf5
      · intro x hx
        simp only [Shape.spine, List.mem_cons, not_or] at hx
        obtain ⟨hxa, hxb, hxr⟩ := hx
        have h1 : some x ≠ (pheap_meld cmp (some a) (some b) s4).1 := by
          intro h
          rcases meld_fst_cases cmp a b s4 with h2 | h2
          · rw [h2] at h; exact hxa (Option.some.inj h)
          · rw [h2] at h; exact hxb (Option.some.inj h)
        have h2 : some x ≠ (mergePairsShape cmp rest).head :=
          fun h => hxr (mergePairsShape_head_spine cmp rest x h.symm)
        rw [hf5 x h1 h2, hf1 x hxa hxb, hf4 x hxr, hs2o x hxa hxb]
      · rw [hc5, hc1, hc4, meldShape_cells_spine, mergePairsShape_spine]
        have : s2.calls = s.calls := rfl
        simp only [Shape.spine, List.length_cons, this]
        omega

/-- On a represented sibling list of disjoint trees the order in which the two arguments
of the outer meld are evaluated does not matter: both orders return the same reference and
the same state. -/
theorem merge_pairs_order_irrelevant (cmp : Nat → Nat → Bool) (fuel : Nat) (t : Shape)
    (p : Option Nat) (s : State) (hrep : Rep s.mem p t) (hnd : t.addrs.Nodup)
    (hfuel : t.spine.length / 2 < fuel) :
    pheap_merge_pairs_rtl cmp fuel p s = pheap_merge_pairs cmp fuel p s := by
  obtain ⟨s2, hrun, hwf, hfr, hc⟩ := merge_pairs_rep cmp fuel t p s hrep hnd hfuel
  obtain ⟨s3, hrun3, hwf3, hfr3, hc3⟩ := merge_pairs_rtl_rep cmp fuel t p s hrep hnd hfuel
  rw [hrun, hrun3]
  refine congrArg Except.ok (Prod.ext rfl (state_ext _ _ (funext fun x => ?_) (by rw [hc, hc3])))
  by_cases hx : x ∈ t.addrs
  · exact rep_determines _ _ hwf3.rep hwf.rep x ((mergePairsShape_perm cmp t).symm.subset hx)
  · have hxs : x ∉ t.spine := fun h => hx (spine_subset_addrs t x h)
    show s3.mem x = s2.mem x
    rw [hfr x hxs, hfr3 x hxs]

/-! ## The claims -/

/-- C1: under a strict weak ordering, draining a heap reached from the empty heap by
inserts of nodes not in the heap and delete-min on non-empty heaps terminates and returns a
permutation of the heap's elements in which no later element is strictly preferred to an
earlier one; inserting the values 5, 3, 8, 1 under less-than and draining yields
1, 3, 5, 8. -/
theorem drain_in_comparator_order (cmp : Nat → Nat → Bool) (hs : StrictWeakOrder cmp)
    (h : Option Nat) (s : State) (es : List Nat) (hr : Reachable cmp h s es)
    (fuel : Nat) (hf : es.length ≤ fuel) :
    (∃ out, drain cmp fuel h s = .ok out ∧ out.Perm es
        ∧ out.Pairwise (fun a b => cmp b a = false))
      ∧ (∃ out, drain sampleCmp 4 (insertAll sampleCmp [1, 2, 3, 4] none blank).1
            (insertAll sampleCmp [1, 2, 3, 4] none blank).2 = .ok out
          ∧ [1, 2, 3, 4].map sampleValue = [5, 3, 8, 1]
          ∧ out.map sampleValue = [1, 3, 5, 8]) := by
  obtain ⟨t, hwf, hperm, hord⟩ := reachable_inv cmp h s es hr
  have hsize : t.size ≤ fuel := by
    rw [← length_addrs, hperm.length_eq]
    exact hf
  obtain ⟨out, hd, hp, hsorted⟩ := drain_wf cmp fuel t h s hwf hsize
  exact ⟨⟨out, hd, hp.trans hperm, hsorted hs (hord (swo_asymm hs))⟩,
    ⟨[4, 2, 1, 3], rfl, rfl, rfl⟩⟩

/-- Witness of C1: the sample heap holding 5, 3, 8, 1. -/
theorem drain_in_comparator_order_witness :
    StrictWeakOrder sampleCmp
      ∧ Reachable sampleCmp (insertAll sampleCmp [1, 2, 3, 4] none blank).1
          (insertAll sampleCmp [1, 2, 3, 4] none blank).2 [4, 3, 2, 1]
      ∧ [4, 3, 2, 1].length ≤ 4
      ∧ ((∃ out, drain sampleCmp 4 (insertAll sampleCmp [1, 2, 3, 4] none blank).1
            (insertAll sampleCmp [1, 2, 3, 4] none blank).2 = .ok out
          ∧ out.Perm [4, 3, 2, 1] ∧ out.Pairwise (fun a b => sampleCmp b a = false))
        ∧ (∃ out, drain sampleCmp 4 (insertAll sampleCmp [1, 2, 3, 4] none blank).1
            (insertAll sampleCmp [1, 2, 3, 4] none blank).2 = .ok out
          ∧ [1, 2, 3, 4].map sampleValue = [5, 3, 8, 1]
          ∧ out.map sampleValue = [1, 3, 5, 8])) :=
  ⟨swo_keyCmp sampleValue,
    reachable_insertAll sampleCmp [1, 2, 3, 4] none blank [] (Reachable.empty blank)
      (by decide),
    by decide,
    drain_in_comparator_order sampleCmp (swo_keyCmp sampleValue) _ _ [4, 3, 2, 1]
      (reachable_insertAll sampleCmp [1, 2, 3, 4] none blank [] (Reachable.empty blank)
        (by decide)) 4 (by decide)⟩

/-- C2: after inserting `k` distinct nodes into the empty heap, the heap is non-empty
before each of the first `k` calls of delete-min, the `k` extracted roots are pairwise
distinct and are exactly the inserted nodes, and the heap returned by the `k`-th call is
the empty heap `NULL`. -/
theorem insert_k_delete_k (cmp : Nat → Nat → Bool) (s0 : State) (es : List Nat)
    (hnd : es.Nodup) (fuel : Nat) (hf : es.length ≤ fuel) :
    (∀ j, j < es.length → ∃ out r s2,
        extractN cmp fuel j (insertAll cmp es none s0).1 (insertAll cmp es none s0).2
          = .ok (out, some r, s2))
      ∧ (∃ out s2,
          extractN cmp fuel es.length (insertAll cmp es none s0).1
            (insertAll cmp es none s0).2 = .ok (out, none, s2)
          ∧ out.length = es.length ∧ out.Nodup ∧ out.Perm es) := by
  obtain ⟨t, hwf, hperm⟩ := insertAll_wf cmp s0 es hnd
  have hsize : t.size = es.length := by rw [← length_addrs, hperm.length_eq]
  constructor
  · intro j hj
    obtain ⟨out, h2, s2, t2, hx, hwf2, hp⟩ :=
      extractN_wf cmp fuel j t _ _ hwf (by omega) (by omega)
    have hx2 : out.length = j := extractN_length cmp fuel j _ _ _ hx
    have hlen := hp.length_eq
    simp only [List.length_append, length_addrs] at hlen
    cases h2 with
    | some r => exact ⟨out, r, s2, hx⟩
    | none =>
      have : t2 = .leaf := (wf_leaf_iff hwf2).mp rfl
      subst this
      simp only [Shape.size] at hlen
      omega
  · obtain ⟨out, h2, s2, t2, hx, hwf2, hp⟩ :=
      extractN_wf cmp fuel es.length t _ _ hwf (by omega) (by omega)
    have hx2 : out.length = es.length := extractN_length cmp fuel es.length _ _ _ hx
    have hlen := hp.length_eq
    simp only [List.length_append, length_addrs] at hlen
    have ht2 : t2 = .leaf := by
      cases t2 with
      | leaf => rfl
      | cell a c n => simp only [Shape.size] at hlen; omega
    subst ht2
    have hh2 : h2 = none := hwf2.rep
    subst hh2
    have hp2 : out.Perm es := by
      simp only [Shape.addrs, List.append_nil] at hp
      exact hp.trans hperm
    exact ⟨out, s2, hx, hx2, hp2.nodup_iff.mpr hnd, hp2⟩

/-- Witness of C2: three nodes. -/
theorem insert_k_delete_k_witness :
    [1, 2, 3].Nodup ∧ [1, 2, 3].length ≤ 3
      ∧ ((∀ j, j < [1, 2, 3].length → ∃ out r s2,
          extractN sampleCmp 3 j (insertAll sampleCmp [1, 2, 3] none blank).1
            (insertAll sampleCmp [1, 2, 3] none blank).2 = .ok (out, some r, s2))
        ∧ (∃ out s2,
          extractN sampleCmp 3 [1, 2, 3].length (insertAll sampleCmp [1, 2, 3] none blank).1
            (insertAll sampleCmp [1, 2, 3] none blank).2 = .ok (out, none, s2)
          ∧ out.length = [1, 2, 3].length ∧ out.Nodup ∧ out.Perm [1, 2, 3])) :=
  ⟨by decide, by decide, insert_k_delete_k sampleCmp blank [1, 2, 3] (by decide) 3 (by decide)⟩

/-- C3 as stated fails: with two records of equal value 7, inserted as nodes 1 and 2, node
2 is a child of node 1 but the comparator does not hold between them. -/
theorem heap_property_strict_fails :
    StrictWeakOrder (keyCmp (fun _ => 7))
      ∧ Reachable (keyCmp (fun _ => 7)) (insertAll (keyCmp (fun _ => 7)) [1, 2] none blank).1
          (insertAll (keyCmp (fun _ => 7)) [1, 2] none blank).2 [2, 1]
      ∧ 1 ∈ [2, 1]
      ∧ OnList (insertAll (keyCmp (fun _ => 7)) [1, 2] none blank).2.mem
          ((insertAll (keyCmp (fun _ => 7)) [1, 2] none blank).2.mem 1).subheaps 2
      ∧ keyCmp (fun _ => 7) 1 2 = false :=
  ⟨swo_keyCmp _,
    reachable_insertAll _ [1, 2] none blank [] (Reachable.empty blank) (by decide),
    by decide, OnList.head 2, rfl⟩

/-- C3, amended: under a strict weak ordering, in every heap reached from the empty heap
by inserts and delete-mins, no immediate child `c` of a node `p` is strictly preferred to
`p`: the comparator is false on `(c, p)`. -/
theorem heap_property_weak (cmp : Nat → Nat → Bool) (hs : StrictWeakOrder cmp)
    (h : Option Nat) (s : State) (es : List Nat) (hr : Reachable cmp h s es)
    (p : Nat) (hp : p ∈ es) (c : Nat) (hc : OnList s.mem (s.mem p).subheaps c) :
    cmp c p = false := by
  obtain ⟨t, hwf, hperm, hord⟩ := reachable_inv cmp h s es hr
  obtain ⟨k, hk, hko⟩ :=
    rep_children (NotBefore cmp) p t h none hwf.rep (hperm.symm.subset hp)
  exact ordered_spine _ k p (hko (hord (swo_asymm hs))) c ((onList_spine k _ c hk).mp hc)

/-- Witness of the amended C3: the two tied records. -/
theorem heap_property_weak_witness :
    StrictWeakOrder (keyCmp (fun _ => 7))
      ∧ Reachable (keyCmp (fun _ => 7)) (insertAll (keyCmp (fun _ => 7)) [1, 2] none blank).1
          (insertAll (keyCmp (fun _ => 7)) [1, 2] none blank).2 [2, 1]
      ∧ 1 ∈ [2, 1]
      ∧ OnList (insertAll (keyCmp (fun _ => 7)) [1, 2] none blank).2.mem
          ((insertAll (keyCmp (fun _ => 7)) [1, 2] none blank).2.mem 1).subheaps 2
      ∧ keyCmp (fun _ => 7) 2 1 = false :=
  ⟨swo_keyCmp _,
    reachable_insertAll _ [1, 2] none blank [] (Reachable.empty blank) (by decide),
    by decide, OnList.head 2,
    heap_property_weak (keyCmp (fun _ => 7)) (swo_keyCmp _) _ _ [2, 1]
      (reachable_insertAll _ [1, 2] none blank [] (Reachable.empty blank) (by decide))
      1 (by decide) 2 (OnList.head 2)⟩

/-- C4: under a strict weak ordering, the root of a non-empty reachable heap is one of its
elements and no element of the heap is strictly preferred to it. -/
theorem root_is_minimum (cmp : Nat → Nat → Bool) (hs : StrictWeakOrder cmp)
    (r : Nat) (s : State) (es : List Nat) (hr : Reachable cmp (some r) s es) :
    r ∈ es ∧ ∀ x ∈ es, cmp x r = false := by
  obtain ⟨t, hwf, hperm, hord⟩ := reachable_inv cmp (some r) s es hr
  obtain ⟨k, hk⟩ := wf_some hwf
  subst hk
  refine ⟨hperm.subset (by simp [Shape.addrs]), ?_⟩
  intro x hx
  have hx2 := hperm.symm.subset hx
  simp only [Shape.addrs, List.append_nil, List.mem_cons] at hx2
  rcases hx2 with hx2 | hx2
  · rw [hx2]; exact hs.irrefl r
  · exact ordered_above cmp hs k r (hord (swo_asymm hs)).2.1 x hx2

/-- Witness of C4: the sample heap, whose root is node 4 (value 1). -/
theorem root_is_minimum_witness :
    StrictWeakOrder sampleCmp
      ∧ Reachable sampleCmp (some 4) (insertAll sampleCmp [1, 2, 3, 4] none blank).2
          [4, 3, 2, 1]
      ∧ (4 ∈ [4, 3, 2, 1] ∧ ∀ x ∈ [4, 3, 2, 1], sampleCmp x 4 = false) :=
  ⟨swo_keyCmp sampleValue,
    reachable_insertAll sampleCmp [1, 2, 3, 4] none blank [] (Reachable.empty blank)
      (by decide),
    root_is_minimum sampleCmp (swo_keyCmp sampleValue) 4 _ [4, 3, 2, 1]
      (reachable_insertAll sampleCmp [1, 2, 3, 4] none blank [] (Reachable.empty blank)
        (by decide))⟩

/-- C5: on the heap built by inserting `n` distinct nodes into the empty heap, visit
invokes the visitor exactly `n` times, once on each inserted node and on no other. -/
theorem visit_after_inserts (cmp : Nat → Nat → Bool) (s0 : State) (es : List Nat)
    (hnd : es.Nodup) (fuel : Nat) (hf : es.length < fuel) :
    ∃ seen, pheap_visit_heap fuel (insertAll cmp es none s0).1 (insertAll cmp es none s0).2
        = .ok seen
      ∧ seen.length = es.length ∧ seen.Nodup ∧ seen.Perm es := by
  obtain ⟨t, hwf, hperm⟩ := insertAll_wf cmp s0 es hnd
  have hsize : t.size = es.length := by rw [← length_addrs, hperm.length_eq]
  exact ⟨t.addrs, visit_rep fuel t _ _ hwf.rep (by omega), hperm.length_eq, hwf.nodup, hperm⟩

/-- Witness of C5: the four sample nodes. -/
theorem visit_after_inserts_witness :
    [1, 2, 3, 4].Nodup ∧ [1, 2, 3, 4].length < 5
      ∧ ∃ seen, pheap_visit_heap 5 (insertAll sampleCmp [1, 2, 3, 4] none blank).1
          (insertAll sampleCmp [1, 2, 3, 4] none blank).2 = .ok seen
        ∧ seen.length = [1, 2, 3, 4].length ∧ seen.Nodup ∧ seen.Perm [1, 2, 3, 4] :=
  ⟨by decide, by decide, visit_after_inserts sampleCmp blank [1, 2, 3, 4] (by decide) 5
    (by decide)⟩

/-- C6: meld of two well-formed heaps with disjoint nodes (each possibly empty, each root
with an empty sibling field) is a well-formed heap whose nodes are those of both, and
draining it returns the nodes returned by draining the two heaps separately. -/
theorem meld_preserves_content (cmp : Nat → Nat → Bool) (s : State) (a b : Option Nat)
    (ta tb : Shape) (ha : WellFormed s.mem a ta) (hb : WellFormed s.mem b tb)
    (hdis : ∀ x ∈ ta.addrs, x ∉ tb.addrs) (fuel : Nat) (hf : ta.size + tb.size ≤ fuel) :
    (∃ t, WellFormed (pheap_meld cmp a b s).2.mem (pheap_meld cmp a b s).1 t
        ∧ t.addrs.Perm (ta.addrs ++ tb.addrs))
      ∧ (∃ out outA outB,
          drain cmp fuel (pheap_meld cmp a b s).1 (pheap_meld cmp a b s).2 = .ok out
          ∧ drain cmp fuel a s = .ok outA ∧ drain cmp fuel b s = .ok outB
          ∧ out.Perm (outA ++ outB)) := by
  have hnd : (ta.addrs ++ tb.addrs).Nodup :=
    List.nodup_append.mpr ⟨ha.nodup, hb.nodup, fun x hx hx2 => hdis x hx hx2⟩
  obtain ⟨hwf, _, _⟩ := meld_wf cmp s a b ta tb ha hb hnd
  have hperm := meldShape_perm cmp ta tb ha.single hb.single
  have hsz : (meldShape cmp ta tb).size ≤ fuel := by
    rw [← length_addrs, hperm.length_eq, List.length_append, length_addrs, length_addrs]
    exact hf
  obtain ⟨out, ho, hpo, _⟩ := drain_wf cmp fuel _ _ _ hwf hsz
  obtain ⟨outA, hoA, hpA, _⟩ := drain_wf cmp fuel ta a s ha (by omega)
  obtain ⟨outB, hoB, hpB, _⟩ := drain_wf cmp fuel tb b s hb (by omega)
  exact ⟨⟨_, hwf, hperm⟩, out, outA, outB, ho, hoA, hoB,
    (hpo.trans hperm).trans (List.Perm.append hpA hpB).symm⟩

/-- Witness of C6: the one-node heaps at nodes 1 and 2 of the blank memory. -/
theorem meld_preserves_content_witness :
    WellFormed blank.mem (some 1) (.cell 1 .leaf .leaf)
      ∧ WellFormed blank.mem (some 2) (.cell 2 .leaf .leaf)
      ∧ (∀ x ∈ (Shape.cell 1 .leaf .leaf).addrs, x ∉ (Shape.cell 2 .leaf .leaf).addrs)
      ∧ (Shape.cell 1 .leaf .leaf).size + (Shape.cell 2 .leaf .leaf).size ≤ 2
      ∧ ((∃ t, WellFormed (pheap_meld sampleCmp (some 1) (some 2) blank).2.mem
            (pheap_meld sampleCmp (some 1) (some 2) blank).1 t
          ∧ t.addrs.Perm ((Shape.cell 1 .leaf .leaf).addrs ++ (Shape.cell 2 .leaf .leaf).addrs))
        ∧ (∃ out outA outB,
          drain sampleCmp 2 (pheap_meld sampleCmp (some 1) (some 2) blank).1
            (pheap_meld sampleCmp (some 1) (some 2) blank).2 = .ok out
          ∧ drain sampleCmp 2 (some 1) blank = .ok outA
          ∧ drain sampleCmp 2 (some 2) blank = .ok outB
          ∧ out.Perm (outA ++ outB))) :=
  ⟨⟨⟨rfl, rfl, rfl⟩, by decide, rfl⟩, ⟨⟨rfl, rfl, rfl⟩, by decide, rfl⟩, by decide, by decide,
    meld_preserves_content sampleCmp blank (some 1) (some 2) (.cell 1 .leaf .leaf)
      (.cell 2 .leaf .leaf) ⟨⟨rfl, rfl, rfl⟩, by decide, rfl⟩ ⟨⟨rfl, rfl, rfl⟩, by decide, rfl⟩
      (by decide) 2 (by decide)⟩

/-- C7: meld of any heap with the empty heap, on either side, returns the heap itself and
the unchanged state (no field written, no comparator call), whatever the comparator; so
draining and visiting give the same sequences as on the heap itself. -/
theorem meld_identity (cmp : Nat → Nat → Bool) (h : Option Nat) (s : State) :
    pheap_meld cmp h none s = (h, s) ∧ pheap_meld cmp none h s = (h, s)
      ∧ (pheap_meld cmp h none s).2.calls = s.calls
      ∧ (pheap_meld cmp none h s).2.calls = s.calls
      ∧ (∀ fuel, drain cmp fuel (pheap_meld cmp h none s).1 (pheap_meld cmp h none s).2
            = drain cmp fuel h s
          ∧ drain cmp fuel (pheap_meld cmp none h s).1 (pheap_meld cmp none h s).2
            = drain cmp fuel h s)
      ∧ (∀ fuel, pheap_visit_heap fuel (pheap_meld cmp h none s).1 (pheap_meld cmp h none s).2
            = pheap_visit_heap fuel h s
          ∧ pheap_visit_heap fuel (pheap_meld cmp none h s).1 (pheap_meld cmp none h s).2
            = pheap_visit_heap fuel h s) := by
  rw [meld_none_right, meld_none_left]
  exact ⟨rfl, rfl, rfl, rfl, fun _ => ⟨rfl, rfl⟩, fun _ => ⟨rfl, rfl⟩⟩

/-- C8: insert of a node `e` not in a well-formed heap returns a non-empty well-formed
heap holding the old nodes and `e`; the root is `e` when the heap is empty or the
comparator holds on `(e, old root)`, and the old root otherwise; the node that did not
become root heads the root's child list, followed by the root's previous children. -/
theorem insert_postcondition (cmp : Nat → Nat → Bool) (s : State) (h : Option Nat)
    (t : Shape) (e : Nat) (hwf : WellFormed s.mem h t) (he : e ∉ t.addrs) :
    (pheap_insert cmp h e s).1 ≠ none
      ∧ (∃ t2, WellFormed (pheap_insert cmp h e s).2.mem (pheap_insert cmp h e s).1 t2
          ∧ t2.addrs.Perm (e :: t.addrs))
      ∧ (h = none → (pheap_insert cmp h e s).1 = some e
          ∧ WellFormed (pheap_insert cmp h e s).2.mem (some e) (.cell e .leaf .leaf))
      ∧ (∀ r k, h = some r → t = .cell r k .leaf → cmp e r = true →
          (pheap_insert cmp h e s).1 = some e
          ∧ WellFormed (pheap_insert cmp h e s).2.mem (some e)
              (.cell e (.cell r k .leaf) .leaf))
      ∧ (∀ r k, h = some r → t = .cell r k .leaf → cmp e r = false →
          (pheap_insert cmp h e s).1 = some r
          ∧ WellFormed (pheap_insert cmp h e s).2.mem (some r)
              (.cell r (.cell e .leaf k) .leaf)) := by
  obtain ⟨hw, _⟩ := insert_wf cmp s h t e hwf he
  have hhead := rep_head hw.rep
  have hperm : (meldShape cmp (.cell e .leaf .leaf) t).addrs.Perm (e :: t.addrs) := by
    have := meldShape_perm cmp (.cell e .leaf .leaf) t rfl hwf.single
    simpa [Shape.addrs] using this
  refine ⟨?_, ⟨_, hw, hperm⟩, ?_, ?_, ?_⟩
  · intro hn
    have := (wf_leaf_iff hw).mp hn
    have hl := hperm.length_eq
    rw [this] at hl
    simp [Shape.addrs] at hl
  · intro hnone
    have ht : t = .leaf := (wf_leaf_iff hwf).mp hnone
    subst ht
    subst hnone
    have hm : meldShape cmp (.cell e .leaf .leaf) .leaf = .cell e .leaf .leaf := rfl
    rw [hm] at hw hhead
    have hh : (pheap_insert cmp none e s).1 = some e := hhead
    rw [hh] at hw
    exact ⟨hh, hw⟩
  · intro r k _ ht hc
    subst ht
    have hm : meldShape cmp (.cell e .leaf .leaf) (.cell r k .leaf)
        = .cell e (.cell r k .leaf) .leaf := by
      simp only [meldShape, hc, if_true]
    rw [hm] at hw hhead
    have hh : (pheap_insert cmp h e s).1 = some e := hhead
    rw [hh] at hw
    exact ⟨hh, hw⟩
  · intro r k _ ht hc
    subst ht
    have hm : meldShape cmp (.cell e .leaf .leaf) (.cell r k .leaf)
        = .cell r (.cell e .leaf k) .leaf := by
      simp only [meldShape, hc, Bool.false_eq_true, if_false]
    rw [hm] at hw hhead
    have hh : (pheap_insert cmp h e s).1 = some r := hhead
    rw [hh] at hw
    exact ⟨hh, hw⟩

/-- Witness of C8: inserting node 2 (value 3) into the heap holding node 1 (value 5). -/
theorem insert_postcondition_witness :
    WellFormed blank.mem (some 1) (.cell 1 .leaf .leaf)
      ∧ 2 ∉ (Shape.cell 1 .leaf .leaf).addrs
      ∧ ((pheap_insert sampleCmp (some 1) 2 blank).1 ≠ none
        ∧ (∃ t2, WellFormed (pheap_insert sampleCmp (some 1) 2 blank).2.mem
              (pheap_insert sampleCmp (some 1) 2 blank).1 t2
            ∧ t2.addrs.Perm (2 :: (Shape.cell 1 .leaf .leaf).addrs))
        ∧ (some 1 = none → (pheap_insert sampleCmp (some 1) 2 blank).1 = some 2
            ∧ WellFormed (pheap_insert sampleCmp (some 1) 2 blank).2.mem (some 2)
                (.cell 2 .leaf .leaf))
        ∧ (∀ r k, some 1 = some r → Shape.cell 1 .leaf .leaf = .cell r k .leaf →
            sampleCmp 2 r = true →
            (pheap_insert sampleCmp (some 1) 2 blank).1 = some 2
            ∧ WellFormed (pheap_insert sampleCmp (some 1) 2 blank).2.mem (some 2)
                (.cell 2 (.cell r k .leaf) .leaf))
        ∧ (∀ r k, some 1 = some r → Shape.cell 1 .leaf .leaf = .cell r k .leaf →
            sampleCmp 2 r = false →
            (pheap_insert sampleCmp (some 1) 2 blank).1 = some r
            ∧ WellFormed (pheap_insert sampleCmp (some 1) 2 blank).2.mem (some r)
                (.cell r (.cell 2 .leaf k) .leaf))) :=
  ⟨⟨⟨rfl, rfl, rfl⟩, by decide, rfl⟩, by decide,
    insert_postcondition sampleCmp blank (some 1) (.cell 1 .leaf .leaf) 2
      ⟨⟨rfl, rfl, rfl⟩, by decide, rfl⟩ (by decide)⟩

/-- C9: delete-min on a well-formed non-empty heap with root `r` returns a well-formed
heap holding exactly the nodes of the heap other than `r`, each once, and returns the
empty heap exactly when `r` has no children. -/
theorem delete_min_postcondition (cmp : Nat → Nat → Bool) (s : State) (r : Nat) (t : Shape)
    (fuel : Nat) (hwf : WellFormed s.mem (some r) t) (hf : t.size ≤ fuel) :
    ∃ h2 s2 t2, pheap_delete_min cmp fuel (some r) s = .ok (h2, s2)
      ∧ WellFormed s2.mem h2 t2
      ∧ t2.addrs.Perm (t.addrs.erase r) ∧ r ∉ t2.addrs
      ∧ (h2 = none ↔ (s.mem r).subheaps = none) := by
  obtain ⟨k, hk⟩ := wf_some hwf
  subst hk
  simp only [Shape.size] at hf
  have hsp := length_spine_le k
  obtain ⟨s2, hrun, hwf2, _⟩ := delete_min_wf cmp s r k fuel hwf (by omega)
  have hperm := mergePairsShape_perm cmp k
  have hrk : r ∉ k.addrs := by
    have := hwf.nodup
    simp only [Shape.addrs, List.append_nil, List.nodup_cons] at this
    exact this.1
  refine ⟨_, s2, _, hrun, hwf2, ?_, fun hx => hrk (hperm.subset hx), ?_⟩
  · simpa [Shape.addrs] using hperm
  · have hsub : (s.mem r).subheaps = k.head := rep_head hwf.rep.2.1
    rw [hsub, wf_leaf_iff hwf2]
    have hsz := size_mergePairsShape cmp k
    constructor
    · intro hm
      rw [hm] at hsz
      cases k with
      | leaf => rfl
      | cell a c n => simp only [Shape.size] at hsz; omega
    · intro hkh
      cases k with
      | leaf => rfl
      | cell a c n => cases hkh

/-- Witness of C9: the sample heap of four nodes, whose root is node 4. -/
theorem delete_min_postcondition_witness :
    WellFormed (insertAll sampleCmp [1, 2, 3, 4] none blank).2.mem (some 4)
        (.cell 4 (.cell 2 (.cell 3 .leaf (.cell 1 .leaf .leaf)) .leaf) .leaf)
      ∧ (Shape.cell 4 (.cell 2 (.cell 3 .leaf (.cell 1 .leaf .leaf)) .leaf) .leaf).size ≤ 4
      ∧ ∃ h2 s2 t2,
          pheap_delete_min sampleCmp 4 (some 4) (insertAll sampleCmp [1, 2, 3, 4] none blank).2
            = .ok (h2, s2)
          ∧ WellFormed s2.mem h2 t2
          ∧ t2.addrs.Perm
              ((Shape.cell 4 (.cell 2 (.cell 3 .leaf (.cell 1 .leaf .leaf)) .leaf) .leaf).addrs.erase 4)
          ∧ 4 ∉ t2.addrs
          ∧ (h2 = none ↔ ((insertAll sampleCmp [1, 2, 3, 4] none blank).2.mem 4).subheaps = none) :=
  ⟨⟨⟨rfl, ⟨rfl, ⟨rfl, rfl, ⟨rfl, rfl, rfl⟩⟩, rfl⟩, rfl⟩, by decide, rfl⟩, by decide,
    delete_min_postcondition sampleCmp _ 4
      (.cell 4 (.cell 2 (.cell 3 .leaf (.cell 1 .leaf .leaf)) .leaf) .leaf) 4
      ⟨⟨rfl, ⟨rfl, ⟨rfl, rfl, ⟨rfl, rfl, rfl⟩⟩, rfl⟩, rfl⟩, by decide, rfl⟩ (by decide)⟩

/-- C10: delete-min on a well-formed non-empty heap with root `r` leaves both fields of
`r` unchanged, changes no node other than the immediate children of `r`, and returns the
same reference and the same final memory whatever the value of the sibling field of
`r`. -/
theorem delete_min_frame (cmp : Nat → Nat → Bool) (s : State) (r : Nat) (t : Shape)
    (fuel : Nat) (hwf : WellFormed s.mem (some r) t) (hf : t.size ≤ fuel) :
    ∃ h2 s2, pheap_delete_min cmp fuel (some r) s = .ok (h2, s2)
      ∧ s2.mem r = s.mem r
      ∧ (∀ x, ¬ OnList s.mem (s.mem r).subheaps x → s2.mem x = s.mem x)
      ∧ (∀ v, pheap_delete_min cmp fuel (some r) (s.setNext r v)
          = .ok (h2, s2.setNext r v)) := by
  obtain ⟨k, hk⟩ := wf_some hwf
  subst hk
  simp only [Shape.size] at hf
  have hsp := length_spine_le k
  have hnd := hwf.nodup
  simp only [Shape.addrs, List.append_nil, List.nodup_cons] at hnd
  obtain ⟨hrk, hndk⟩ := hnd
  have hrepk : Rep s.mem (s.mem r).subheaps k := hwf.rep.2.1
  have hrsp : r ∉ k.spine := fun hx => hrk (spine_subset_addrs k r hx)
  obtain ⟨s2, hrun, _, hfr, _⟩ :=
    merge_pairs_rep cmp fuel k _ s hrepk hndk (by omega)
  refine ⟨_, s2, hrun, hfr r hrsp, ?_, ?_⟩
  · intro x hx
    exact hfr x (fun hsp2 => hx ((onList_spine k _ x hrepk).mpr hsp2))
  · intro v
    have hag : ∀ x ∈ k.addrs, (s.setNext r v).mem x = s.mem x := by
      intro x hx
      have : x ≠ r := fun h => hrk (h ▸ hx)
      simp [this]
    obtain ⟨h3, s3, s3', hrun3, hrun3', hc3, hag3, hfr3⟩ :=
      merge_pairs_indep cmp fuel k _ s (s.setNext r v) hrepk hndk (by omega) hag rfl
    have heq : ((mergePairsShape cmp k).head, s2) = (h3, s3) := by
      rw [hrun] at hrun3
      exact Except.ok.inj hrun3
    simp only [Prod.mk.injEq] at heq
    obtain ⟨hh, hss⟩ := heq
    subst hh hss
    have hsub : ((s.setNext r v).mem r).subheaps = (s.mem r).subheaps := by simp
    simp only [pheap_delete_min, hsub, hrun3']
    refine congrArg Except.ok (Prod.ext rfl (state_ext _ _ (funext fun x => ?_) hc3))
    by_cases hx : x ∈ k.addrs
    · have hxr : x ≠ r := fun h => hrk (h ▸ hx)
      rw [hag3 x hx]
      simp [hxr]
    · have hxs : x ∉ k.spine := fun h => hx (spine_subset_addrs k x h)
      rw [(hfr3 x hxs).2]
      simp only [mem_setNext]
      rw [hfr x hxs]

/-- Witness of C10: the sample heap of four nodes, whose root is node 4. -/
theorem delete_min_frame_witness :
    WellFormed (insertAll sampleCmp [1, 2, 3, 4] none blank).2.mem (some 4)
        (.cell 4 (.cell 2 (.cell 3 .leaf (.cell 1 .leaf .leaf)) .leaf) .leaf)
      ∧ (Shape.cell 4 (.cell 2 (.cell 3 .leaf (.cell 1 .leaf .leaf)) .leaf) .leaf).size ≤ 4
      ∧ ∃ h2 s2,
          pheap_delete_min sampleCmp 4 (some 4) (insertAll sampleCmp [1, 2, 3, 4] none blank).2
            = .ok (h2, s2)
          ∧ s2.mem 4 = (insertAll sampleCmp [1, 2, 3, 4] none blank).2.mem 4
          ∧ (∀ x, ¬ OnList (insertAll sampleCmp [1, 2, 3, 4] none blank).2.mem
                ((insertAll sampleCmp [1, 2, 3, 4] none blank).2.mem 4).subheaps x →
              s2.mem x = (insertAll sampleCmp [1, 2, 3, 4] none blank).2.mem x)
          ∧ (∀ v, pheap_delete_min sampleCmp 4 (some 4)
                ((insertAll sampleCmp [1, 2, 3, 4] none blank).2.setNext 4 v)
              = .ok (h2, s2.setNext 4 v)) :=
  ⟨⟨⟨rfl, ⟨rfl, ⟨rfl, rfl, ⟨rfl, rfl, rfl⟩⟩, rfl⟩, rfl⟩, by decide, rfl⟩, by decide,
    delete_min_frame sampleCmp _ 4
      (.cell 4 (.cell 2 (.cell 3 .leaf (.cell 1 .leaf .leaf)) .leaf) .leaf) 4
      ⟨⟨rfl, ⟨rfl, ⟨rfl, rfl, ⟨rfl, rfl, rfl⟩⟩, rfl⟩, rfl⟩, by decide, rfl⟩ (by decide)⟩

/-- C11: insert of a node `e` not in a well-formed heap changes no field of a node other
than `e` and the old root; the old root keeps its sibling field, and is left unchanged
altogether when `e` becomes the root, so its children field changes only when it stays
root. -/
theorem insert_frame (cmp : Nat → Nat → Bool) (s : State) (h : Option Nat) (t : Shape)
    (e : Nat) (hwf : WellFormed s.mem h t) (he : e ∉ t.addrs) :
    (∀ x, x ≠ e → some x ≠ h → (pheap_insert cmp h e s).2.mem x = s.mem x)
      ∧ (∀ r, h = some r →
          ((pheap_insert cmp h e s).2.mem r).next = (s.mem r).next
          ∧ ((pheap_insert cmp h e s).1 = some e → (pheap_insert cmp h e s).2.mem r = s.mem r)
          ∧ (((pheap_insert cmp h e s).2.mem r).subheaps ≠ (s.mem r).subheaps →
              (pheap_insert cmp h e s).1 = some r)) := by
  refine ⟨(insert_wf cmp s h t e hwf he).2, ?_⟩
  intro r hr
  subst hr
  obtain ⟨k, hk⟩ := wf_some hwf
  subst hk
  have hre : r ≠ e := by
    intro hh
    apply he
    simp [Shape.addrs, hh]
  have her : e ≠ r := fun hh => hre hh.symm
  by_cases hc : cmp e r = true
  · have hres : pheap_insert cmp (some r) e s
        = (some e, (((s.setSubheaps e none).setNext e none).tick).setSubheaps e (some r)) := by
      simp [pheap_insert, pheap_meld, hc]
    rw [hres]
    simp [hre]
  · have hc2 : cmp e r = false := by simpa using hc
    cases hsub : (s.mem r).subheaps with
    | none =>
      have hres : pheap_insert cmp (some r) e s
          = (some r, (((s.setSubheaps e none).setNext e none).tick).setSubheaps r (some e)) := by
        simp [pheap_insert, pheap_meld, hc2, hre, hsub]
      rw [hres]
      simp [hre, her]
    | some c =>
      have hres : pheap_insert cmp (some r) e s
          = (some r, ((((s.setSubheaps e none).setNext e none).tick).setNext e
              (some c)).setSubheaps r (some e)) := by
        simp [pheap_insert, pheap_meld, hc2, hre, hsub]
      rw [hres]
      simp [hre, her]

/-- Witness of C11: inserting node 3 (value 8) into the heap with root 2 and child 1. -/
theorem insert_frame_witness :
    WellFormed (insertAll sampleCmp [1, 2] none blank).2.mem (some 2)
        (.cell 2 (.cell 1 .leaf .leaf) .leaf)
      ∧ 3 ∉ (Shape.cell 2 (.cell 1 .leaf .leaf) .leaf).addrs
      ∧ ((∀ x, x ≠ 3 → some x ≠ some 2 →
            (pheap_insert sampleCmp (some 2) 3 (insertAll sampleCmp [1, 2] none blank).2).2.mem x
              = (insertAll sampleCmp [1, 2] none blank).2.mem x)
        ∧ (∀ r, some 2 = some r →
            ((pheap_insert sampleCmp (some 2) 3
                (insertAll sampleCmp [1, 2] none blank).2).2.mem r).next
              = ((insertAll sampleCmp [1, 2] none blank).2.mem r).next
            ∧ ((pheap_insert sampleCmp (some 2) 3
                  (insertAll sampleCmp [1, 2] none blank).2).1 = some 3 →
                (pheap_insert sampleCmp (some 2) 3
                  (insertAll sampleCmp [1, 2] none blank).2).2.mem r
                  = (insertAll sampleCmp [1, 2] none blank).2.mem r)
            ∧ (((pheap_insert sampleCmp (some 2) 3
                  (insertAll sampleCmp [1, 2] none blank).2).2.mem r).subheaps
                  ≠ ((insertAll sampleCmp [1, 2] none blank).2.mem r).subheaps →
                (pheap_insert sampleCmp (some 2) 3
                  (insertAll sampleCmp [1, 2] none blank).2).1 = some r))) :=
  ⟨⟨⟨rfl, ⟨rfl, rfl, rfl⟩, rfl⟩, by decide, rfl⟩, by decide,
    insert_frame sampleCmp (insertAll sampleCmp [1, 2] none blank).2 (some 2)
      (.cell 2 (.cell 1 .leaf .leaf) .leaf) 3
      ⟨⟨rfl, ⟨rfl, rfl, rfl⟩, rfl⟩, by decide, rfl⟩ (by decide)⟩

theorem visitOrder_eq_addrs (t : Shape) : visitOrder t = t.addrs := by
  induction t with
  | leaf => rfl
  | cell a k n ihk ihn => simp [visitOrder, Shape.addrs, ihk, ihn]

/-- C12: on every finite structure held in memory, visit invokes the visitor on the nodes
in the order `visit(empty) = []`, `visit(n) = [n] ++ visit(n.children) ++ visit(n.sibling)`;
on the empty heap it invokes the visitor zero times. -/
theorem visit_order (s : State) (p : Option Nat) (t : Shape) (fuel : Nat)
    (hrep : Rep s.mem p t) (hf : t.size < fuel) :
    pheap_visit_heap fuel p s = .ok (visitOrder t)
      ∧ pheap_visit_heap fuel none s = .ok [] := by
  refine ⟨?_, ?_⟩
  · rw [visitOrder_eq_addrs]
    exact visit_rep fuel t p s hrep hf
  · cases fuel with
    | zero => omega
    | succ n => rfl

/-- Witness of C12: the sample heap of four nodes. -/
theorem visit_order_witness :
    Rep (insertAll sampleCmp [1, 2, 3, 4] none blank).2.mem (some 4)
        (.cell 4 (.cell 2 (.cell 3 .leaf (.cell 1 .leaf .leaf)) .leaf) .leaf)
      ∧ (Shape.cell 4 (.cell 2 (.cell 3 .leaf (.cell 1 .leaf .leaf)) .leaf) .leaf).size < 5
      ∧ (pheap_visit_heap 5 (some 4) (insertAll sampleCmp [1, 2, 3, 4] none blank).2
          = .ok (visitOrder (.cell 4 (.cell 2 (.cell 3 .leaf (.cell 1 .leaf .leaf)) .leaf) .leaf))
        ∧ pheap_visit_heap 5 none (insertAll sampleCmp [1, 2, 3, 4] none blank).2 = .ok []) :=
  ⟨⟨rfl, ⟨rfl, ⟨rfl, rfl, ⟨rfl, rfl, rfl⟩⟩, rfl⟩, rfl⟩, by decide,
    visit_order (insertAll sampleCmp [1, 2, 3, 4] none blank).2 (some 4)
      (.cell 4 (.cell 2 (.cell 3 .leaf (.cell 1 .leaf .leaf)) .leaf) .leaf) 5
      ⟨rfl, ⟨rfl, ⟨rfl, rfl, ⟨rfl, rfl, rfl⟩⟩, rfl⟩, rfl⟩ (by decide)⟩

/-- Merge-pairs never stops on a read through `NULL`: every field it reads belongs to a
node whose reference was tested first. -/
theorem merge_pairs_no_null (cmp : Nat → Nat → Bool) :
    ∀ (fuel : Nat) (p : Option Nat) (s : State),
      pheap_merge_pairs cmp fuel p s ≠ .error .nullDeref := by
  intro fuel
  induction fuel with
  | zero =>
    intro p s h
    simp only [pheap_merge_pairs] at h
    cases h
  | succ fuel ih =>
    intro p s h
    cases p with
    | none => simp only [pheap_merge_pairs] at h; cases h
    | some l =>
      cases hn : (s.mem l).next with
      | none => simp only [pheap_merge_pairs, hn] at h; cases h
      | some n =>
        simp only [pheap_merge_pairs, hn] at h
        split at h
        · rename_i e hrun
          simp only [Except.error.injEq] at h
          subst h
          exact ih _ _ hrun
        · cases h

/-- C13: for an arbitrary comparator, every heap reached from the empty heap by inserts of
nodes not in the heap and by delete-min on non-empty heaps is a well-formed tree whose
nodes are exactly the inserted nodes not yet extracted; merge-pairs never reads through
`NULL`, and delete-min on such a non-empty heap returns a result. -/
theorem bad_comparator_safe (cmp : Nat → Nat → Bool) (h : Option Nat) (s : State)
    (es : List Nat) (hr : Reachable cmp h s es) :
    (∃ t, WellFormed s.mem h t ∧ t.addrs.Perm es)
      ∧ (∀ fuel p s2, pheap_merge_pairs cmp fuel p s2 ≠ .error .nullDeref)
      ∧ (∀ r, h = some r →
          (∀ fuel, pheap_delete_min cmp fuel h s ≠ .error .nullDeref)
          ∧ (∀ fuel, es.length ≤ fuel → ∃ res, pheap_delete_min cmp fuel h s = .ok res)) := by
  obtain ⟨t, hwf, hperm, _⟩ := reachable_inv cmp h s es hr
  refine ⟨⟨t, hwf, hperm⟩, merge_pairs_no_null cmp, ?_⟩
  intro r hr2
  subst hr2
  refine ⟨fun fuel => merge_pairs_no_null cmp fuel _ s, ?_⟩
  intro fuel hf
  obtain ⟨k, hk⟩ := wf_some hwf
  subst hk
  have hlen := hperm.length_eq
  simp only [length_addrs, Shape.size] at hlen
  have hsp := length_spine_le k
  obtain ⟨s2, hrun, _, _⟩ := delete_min_wf cmp s r k fuel hwf (by omega)
  exact ⟨_, hrun⟩

/-- Witness of C13: the comparator that always answers true, on three inserted nodes. -/
theorem bad_comparator_safe_witness :
    Reachable (fun _ _ => true) (insertAll (fun _ _ => true) [1, 2, 3] none blank).1
        (insertAll (fun _ _ => true) [1, 2, 3] none blank).2 [3, 2, 1]
      ∧ ((∃ t, WellFormed (insertAll (fun _ _ => true) [1, 2, 3] none blank).2.mem
            (insertAll (fun _ _ => true) [1, 2, 3] none blank).1 t ∧ t.addrs.Perm [3, 2, 1])
        ∧ (∀ fuel p s2, pheap_merge_pairs (fun _ _ => true) fuel p s2 ≠ .error .nullDeref)
        ∧ (∀ r, (insertAll (fun _ _ => true) [1, 2, 3] none blank).1 = some r →
            (∀ fuel, pheap_delete_min (fun _ _ => true) fuel
                (insertAll (fun _ _ => true) [1, 2, 3] none blank).1
                (insertAll (fun _ _ => true) [1, 2, 3] none blank).2 ≠ .error .nullDeref)
            ∧ (∀ fuel, [3, 2, 1].length ≤ fuel → ∃ res,
                pheap_delete_min (fun _ _ => true) fuel
                  (insertAll (fun _ _ => true) [1, 2, 3] none blank).1
                  (insertAll (fun _ _ => true) [1, 2, 3] none blank).2 = .ok res))) :=
  ⟨reachable_insertAll _ [1, 2, 3] none blank [] (Reachable.empty blank) (by decide),
    bad_comparator_safe (fun _ _ => true) _ _ [3, 2, 1]
      (reachable_insertAll _ [1, 2, 3] none blank [] (Reachable.empty blank) (by decide))⟩

theorem head_mem_addrs {t : Shape} {y : Nat} (h : t.head = some y) : y ∈ t.addrs :=
  spine_subset_addrs t y (head_mem_spine h)

/-- In a represented shape, the two fields of every node refer to nodes of the shape other
than its first node. -/
theorem rep_links {mem : Nat → PHeap} (t : Shape) :
    ∀ p, Rep mem p t → ∀ x ∈ t.addrs, ∀ y,
      ((mem x).subheaps = some y ∨ (mem x).next = some y) → y ∈ t.addrs.tail := by
  induction t with
  | leaf => intro p _ x hx; cases hx
  | cell a k n ihk ihn =>
    intro p hrep x hx y hy
    obtain ⟨_, hk, hn⟩ := hrep
    simp only [Shape.addrs, List.tail_cons, List.mem_append]
    simp only [Shape.addrs, List.mem_cons, List.mem_append] at hx
    rcases hx with hx | hx | hx
    · subst hx
      rcases hy with hy | hy
      · exact Or.inl (head_mem_addrs ((rep_head hk).symm.trans hy))
      · exact Or.inr (head_mem_addrs ((rep_head hn).symm.trans hy))
    · exact Or.inl (List.mem_of_mem_tail (ihk _ hk x hx y hy))
    · exact Or.inr (List.mem_of_mem_tail (ihn _ hn x hx y hy))

/-- C17: for every comparator, a heap reached from the empty heap by inserts and
delete-mins is empty, or its root has an empty sibling field and no node of the heap has
the root as its sibling or as its child. -/
theorem root_not_on_lists (cmp : Nat → Nat → Bool) (h : Option Nat) (s : State)
    (es : List Nat) (hr : Reachable cmp h s es) :
    h = none ∨ ∃ r, h = some r ∧ (s.mem r).next = none
      ∧ ∀ x ∈ es, (s.mem x).next ≠ some r ∧ (s.mem x).subheaps ≠ some r := by
  obtain ⟨t, hwf, hperm, _⟩ := reachable_inv cmp h s es hr
  cases h with
  | none => exact Or.inl rfl
  | some r =>
    right
    obtain ⟨k, hk⟩ := wf_some hwf
    subst hk
    refine ⟨r, rfl, hwf.rep.2.2, ?_⟩
    intro x hx
    have hx2 := hperm.symm.subset hx
    have hnd := hwf.nodup
    simp only [Shape.addrs, List.append_nil, List.nodup_cons] at hnd
    have key : ∀ y, ((s.mem x).subheaps = some y ∨ (s.mem x).next = some y) → y ≠ r := by
      intro y hy hyr
      have := rep_links _ _ hwf.rep x hx2 y hy
      simp only [Shape.addrs, List.append_nil, List.tail_cons] at this
      exact hnd.1 (hyr ▸ this)
    exact ⟨fun hh => key r (Or.inr hh) rfl, fun hh => key r (Or.inl hh) rfl⟩

/-- Witness of C17: the sample heap of four nodes. -/
theorem root_not_on_lists_witness :
    Reachable sampleCmp (insertAll sampleCmp [1, 2, 3, 4] none blank).1
        (insertAll sampleCmp [1, 2, 3, 4] none blank).2 [4, 3, 2, 1]
      ∧ ((insertAll sampleCmp [1, 2, 3, 4] none blank).1 = none
        ∨ ∃ r, (insertAll sampleCmp [1, 2, 3, 4] none blank).1 = some r
          ∧ ((insertAll sampleCmp [1, 2, 3, 4] none blank).2.mem r).next = none
          ∧ ∀ x ∈ [4, 3, 2, 1],
              ((insertAll sampleCmp [1, 2, 3, 4] none blank).2.mem x).next ≠ some r
              ∧ ((insertAll sampleCmp [1, 2, 3, 4] none blank).2.mem x).subheaps ≠ some r) :=
  ⟨reachable_insertAll sampleCmp [1, 2, 3, 4] none blank [] (Reachable.empty blank)
      (by decide),
    root_not_on_lists sampleCmp _ _ [4, 3, 2, 1]
      (reachable_insertAll sampleCmp [1, 2, 3, 4] none blank [] (Reachable.empty blank)
        (by decide))⟩

/-- Insert overwrites both fields of the inserted node before anything reads them. -/
theorem insert_ignores_fields (cmp : Nat → Nat → Bool) (h : Option Nat) (e : Nat)
    (s : State) (v w : Option Nat) :
    pheap_insert cmp h e ((s.setSubheaps e v).setNext e w) = pheap_insert cmp h e s := by
  have hst : (((s.setSubheaps e v).setNext e w).setSubheaps e none).setNext e none
      = (s.setSubheaps e none).setNext e none := by
    refine state_ext _ _ (funext fun x => ?_) rfl
    by_cases hx : x = e
    · simp [hx]
    · simp [hx]
  simp only [pheap_insert, hst]

/-- C18: after delete-min on a well-formed non-empty heap with root `r`, the children
field of `r` still holds its former value, and inserting `r` again gives a well-formed
heap with the nodes of the original heap; in general the result of insert does not depend
on the values of the two fields of the inserted node before the call. -/
theorem reinsert_extracted_root (cmp : Nat → Nat → Bool) (s : State) (r : Nat) (t : Shape)
    (fuel : Nat) (hwf : WellFormed s.mem (some r) t) (hf : t.size ≤ fuel) :
    (∃ h2 s2, pheap_delete_min cmp fuel (some r) s = .ok (h2, s2)
        ∧ (s2.mem r).subheaps = (s.mem r).subheaps
        ∧ ∃ t3, WellFormed (pheap_insert cmp h2 r s2).2.mem (pheap_insert cmp h2 r s2).1 t3
          ∧ t3.addrs.Perm t.addrs)
      ∧ (∀ (h : Option Nat) (e : Nat) (s0 : State) (v w : Option Nat),
          pheap_insert cmp h e ((s0.setSubheaps e v).setNext e w) = pheap_insert cmp h e s0) := by
  refine ⟨?_, fun h e s0 v w => insert_ignores_fields cmp h e s0 v w⟩
  obtain ⟨k, hk⟩ := wf_some hwf
  subst hk
  simp only [Shape.size] at hf
  have hsp := length_spine_le k
  have hnd := hwf.nodup
  simp only [Shape.addrs, List.append_nil, List.nodup_cons] at hnd
  obtain ⟨s2, hrun, hwf2, hfr⟩ := delete_min_wf cmp s r k fuel hwf (by omega)
  have hperm := mergePairsShape_perm cmp k
  have hr2 : r ∉ (mergePairsShape cmp k).addrs := fun hx => hnd.1 (hperm.subset hx)
  have hrsp : r ∉ k.spine := fun hx => hnd.1 (spine_subset_addrs k r hx)
  refine ⟨_, s2, hrun, by rw [hfr r hrsp], _, (insert_wf cmp s2 _ _ r hwf2 hr2).1, ?_⟩
  refine (meldShape_perm cmp (.cell r .leaf .leaf) (mergePairsShape cmp k) rfl hwf2.single).trans ?_
  simp only [Shape.addrs, List.append_nil, List.cons_append, List.nil_append]
  exact List.Perm.cons r hperm

/-- Witness of C18: the sample heap of four nodes, whose root is node 4. -/
theorem reinsert_extracted_root_witness :
    WellFormed (insertAll sampleCmp [1, 2, 3, 4] none blank).2.mem (some 4)
        (.cell 4 (.cell 2 (.cell 3 .leaf (.cell 1 .leaf .leaf)) .leaf) .leaf)
      ∧ (Shape.cell 4 (.cell 2 (.cell 3 .leaf (.cell 1 .leaf .leaf)) .leaf) .leaf).size ≤ 4
      ∧ ((∃ h2 s2,
            pheap_delete_min sampleCmp 4 (some 4) (insertAll sampleCmp [1, 2, 3, 4] none blank).2
              = .ok (h2, s2)
            ∧ (s2.mem 4).subheaps
                = ((insertAll sampleCmp [1, 2, 3, 4] none blank).2.mem 4).subheaps
            ∧ ∃ t3, WellFormed (pheap_insert sampleCmp h2 4 s2).2.mem
                (pheap_insert sampleCmp h2 4 s2).1 t3
              ∧ t3.addrs.Perm
                (Shape.cell 4 (.cell 2 (.cell 3 .leaf (.cell 1 .leaf .leaf)) .leaf) .leaf).addrs)
        ∧ (∀ (h : Option Nat) (e : Nat) (s0 : State) (v w : Option Nat),
            pheap_insert sampleCmp h e ((s0.setSubheaps e v).setNext e w)
              = pheap_insert sampleCmp h e s0)) :=
  ⟨⟨⟨rfl, ⟨rfl, ⟨rfl, rfl, ⟨rfl, rfl, rfl⟩⟩, rfl⟩, rfl⟩, by decide, rfl⟩, by decide,
    reinsert_extracted_root sampleCmp _ 4
      (.cell 4 (.cell 2 (.cell 3 .leaf (.cell 1 .leaf .leaf)) .leaf) .leaf) 4
      ⟨⟨rfl, ⟨rfl, ⟨rfl, rfl, ⟨rfl, rfl, rfl⟩⟩, rfl⟩, rfl⟩, by decide, rfl⟩ (by decide)⟩

/-- C20: for an asymmetric comparator, in every heap reached from the empty heap by
inserts and delete-mins no immediate child is strictly preferred to its parent; and when
the comparator is false in both directions between the inserted node and the root, insert
keeps the existing root. -/
theorem weak_order_under_ties (cmp : Nat → Nat → Bool)
    (hasym : ∀ a b, cmp a b = true → cmp b a = false)
    (h : Option Nat) (s : State) (es : List Nat) (hr : Reachable cmp h s es) :
    (∀ p ∈ es, ∀ c, OnList s.mem (s.mem p).subheaps c → cmp c p = false)
      ∧ (∀ (r e : Nat) (s0 : State), cmp e r = false → cmp r e = false →
          (pheap_insert cmp (some r) e s0).1 = some r) := by
  constructor
  · intro p hp c hc
    obtain ⟨t, hwf, hperm, hord⟩ := reachable_inv cmp h s es hr
    obtain ⟨k, hk, hko⟩ :=
      rep_children (NotBefore cmp) p t h none hwf.rep (hperm.symm.subset hp)
    exact ordered_spine _ k p (hko (hord hasym)) c ((onList_spine k _ c hk).mp hc)
  · intro r e s0 hc _
    simp [pheap_insert, pheap_meld, hc]

/-- Witness of C20: records of equal value 7 at nodes 1 and 2. -/
theorem weak_order_under_ties_witness :
    (∀ a b, keyCmp (fun _ => 7) a b = true → keyCmp (fun _ => 7) b a = false)
      ∧ Reachable (keyCmp (fun _ => 7)) (insertAll (keyCmp (fun _ => 7)) [1, 2] none blank).1
          (insertAll (keyCmp (fun _ => 7)) [1, 2] none blank).2 [2, 1]
      ∧ ((∀ p ∈ [2, 1], ∀ c,
            OnList (insertAll (keyCmp (fun _ => 7)) [1, 2] none blank).2.mem
              ((insertAll (keyCmp (fun _ => 7)) [1, 2] none blank).2.mem p).subheaps c →
            keyCmp (fun _ => 7) c p = false)
        ∧ (∀ (r e : Nat) (s0 : State), keyCmp (fun _ => 7) e r = false →
            keyCmp (fun _ => 7) r e = false →
            (pheap_insert (keyCmp (fun _ => 7)) (some r) e s0).1 = some r)) :=
  ⟨swo_asymm (swo_keyCmp _),
    reachable_insertAll _ [1, 2] none blank [] (Reachable.empty blank) (by decide),
    weak_order_under_ties (keyCmp (fun _ => 7)) (swo_asymm (swo_keyCmp _)) _ _ [2, 1]
      (reachable_insertAll _ [1, 2] none blank [] (Reachable.empty blank) (by decide))⟩

theorem container_of_field (w R off : Nat) (hfit : R + off < 2 ^ w) :
    container_of w (R + off) off = R := by
  have hoff : off % 2 ^ w = off := Nat.mod_eq_of_lt (by omega)
  have hR : R % 2 ^ w = R := Nat.mod_eq_of_lt (by omega)
  have h1 : R + off + 2 ^ w - off = R + 2 ^ w := by omega
  simp only [container_of, hoff, h1, Nat.add_mod_right, hR]

theorem container_of_self (w off : Nat) (hoff : off < 2 ^ w) : container_of w off off = 0 := by
  have := container_of_field w 0 off (by omega)
  simpa using this

/-- C14: for a record at a non-null address `H` whose heap node lies at `H + off`, the
typed delete-min yields the null record reference when delete-min returns the empty heap
and the address of the record that owns the new root otherwise, so it is null exactly
when the heap is empty; `pheap_or a b` is `b` when `a` is null and `a` otherwise. -/
theorem typed_delete_min_sentinel (w off : Nat) (cmp : Nat → Nat → Bool) (fuel H : Nat)
    (s : State) (h2 : Option Nat) (s2 : State) (hH : H ≠ 0) (hfit : H + off < 2 ^ w)
    (hrun : pheap_delete_min cmp fuel (some (H + off)) s = .ok (h2, s2)) :
    (∃ R, PHEAP_delete_min w off cmp fuel H s = .ok (R, s2)
        ∧ (h2 = none → R = 0)
        ∧ (∀ R2, R2 ≠ 0 → R2 + off < 2 ^ w → h2 = some (R2 + off) → R = R2)
        ∧ ((∀ a, h2 = some a → ∃ R2, R2 ≠ 0 ∧ R2 + off < 2 ^ w ∧ a = R2 + off) →
            (R = 0 ↔ h2 = none)))
      ∧ (∀ a b, pheap_or a b = if a = 0 then b else a)
      ∧ container_of w (pheap_or (toPtr none) off) off = 0 := by
  have hoff : off < 2 ^ w := by omega
  have hfa : ofPtr (fieldAddr w H off) = some (H + off) := by
    have h1 : (H + off) % 2 ^ w = H + off := Nat.mod_eq_of_lt hfit
    have h2 : H + off ≠ 0 := by omega
    simp [ofPtr, fieldAddr, h1, h2]
  have hnone : container_of w (pheap_or (toPtr none) off) off = 0 := by
    simp only [toPtr, pheap_or, if_true]
    exact container_of_self w off hoff
  have hsome : ∀ R2, R2 ≠ 0 → R2 + off < 2 ^ w →
      container_of w (pheap_or (toPtr (some (R2 + off))) off) off = R2 := by
    intro R2 hR2 hfit2
    have hne : R2 + off ≠ 0 := by omega
    simp only [toPtr, pheap_or, hne, if_false]
    exact container_of_field w R2 off hfit2
  refine ⟨⟨container_of w (pheap_or (toPtr h2) off) off, ?_, ?_, ?_, ?_⟩, fun _ _ => rfl, hnone⟩
  · simp only [PHEAP_delete_min, hfa, hrun]
  · intro hh
    rw [hh]
    exact hnone
  · intro R2 hR2 hfit2 hh
    rw [hh]
    exact hsome R2 hR2 hfit2
  · intro hown
    cases h2 with
    | none => exact ⟨fun _ => rfl, fun _ => hnone⟩
    | some a =>
      obtain ⟨R2, hR2, hfit2, ha⟩ := hown a rfl
      subst ha
      rw [hsome R2 hR2 hfit2]
      exact ⟨fun hz => absurd hz hR2, fun hz => by cases hz⟩

/-- Witness of C14: a record at address 16 with its heap node at offset 8, alone in the
heap, on a 64-bit machine. -/
theorem typed_delete_min_sentinel_witness :
    (16 : Nat) ≠ 0 ∧ 16 + 8 < 2 ^ 64
      ∧ pheap_delete_min sampleCmp 1 (some (16 + 8)) blank = .ok (none, blank)
      ∧ ((∃ R, PHEAP_delete_min 64 8 sampleCmp 1 16 blank = .ok (R, blank)
          ∧ ((none : Option Nat) = none → R = 0)
          ∧ (∀ R2, R2 ≠ 0 → R2 + 8 < 2 ^ 64 → (none : Option Nat) = some (R2 + 8) → R = R2)
          ∧ ((∀ a, (none : Option Nat) = some a →
                ∃ R2, R2 ≠ 0 ∧ R2 + 8 < 2 ^ 64 ∧ a = R2 + 8) →
              (R = 0 ↔ (none : Option Nat) = none)))
        ∧ (∀ a b, pheap_or a b = if a = 0 then b else a)
        ∧ container_of 64 (pheap_or (toPtr none) 8) 8 = 0) :=
  ⟨by decide, by norm_num, rfl,
    typed_delete_min_sentinel 64 8 sampleCmp 1 16 blank none blank (by decide) (by norm_num)
      rfl⟩

/-- C19 fails on the code: with the heap node at offset 8 of its record, as in
`struct Sample` on a 64-bit machine, the typed visit of the null record reference hands
the non-null pointer 8 to visit, and the visitor is invoked on it; the typed insert, in
contrast, passes a null record reference on as the empty heap. -/
theorem typed_visit_null_record :
    PHEAP_visit 64 8 2 0 blank = .ok [8]
      ∧ PHEAP_visit 64 8 5 0 (insertAll sampleCmp [1, 2, 3, 4] none blank).2 = .ok [8]
      ∧ PHEAP_visit 64 0 2 0 blank = .ok []
      ∧ (PHEAP_insert 64 8 sampleCmp 0 16 blank).1 = 16 :=
  ⟨rfl, rfl, rfl, rfl⟩

theorem head_toList {α : Type} (o : Option α) : o.toList.head? = o := by
  cases o <;> rfl

theorem forest_single (t : Shape) (ht : t.single) : t.forest = t.forest.head?.toList := by
  cases t with
  | leaf => rfl
  | cell a k n =>
    have : n = .leaf := ht
    subst this
    rfl

/-- Meld of two trees, read as multi-way trees, is the reference meld. -/
theorem forest_meldShape (cmp : Nat → Nat → Bool) (ta tb : Shape) (ha : ta.single)
    (hb : tb.single) :
    (meldShape cmp ta tb).forest = (refMeld cmp ta.forest.head? tb.forest.head?).toList := by
  cases ta with
  | leaf =>
    simp only [meldShape, Shape.forest, List.head?_nil, refMeld]
    exact forest_single tb hb
  | cell l kl nl =>
    have h1 : nl = .leaf := ha
    subst h1
    cases tb with
    | leaf => rfl
    | cell r kr nr =>
      have h2 : nr = .leaf := hb
      subst h2
      simp only [meldShape, Shape.forest, List.head?_cons, refMeld]
      split <;> rfl

/-- Merge-pairs on shapes, read on multi-way trees, is the reference merge-pairs. -/
theorem forest_mergePairsShape (cmp : Nat → Nat → Bool) (t : Shape) :
    (mergePairsShape cmp t).forest = (refMergePairs cmp t.forest).toList := by
  induction t using mergePairsShape.induct cmp with
  | case1 => rfl
  | case2 a k => rfl
  | case3 a k b kb rest ih =>
    simp only [mergePairsShape]
    rw [forest_meldShape cmp _ _
      (meldShape_single cmp (.cell a k .leaf) (.cell b kb .leaf) rfl rfl)
      (mergePairsShape_single cmp rest)]
    rw [forest_meldShape cmp (.cell a k .leaf) (.cell b kb .leaf) rfl rfl, ih]
    simp only [head_toList, Shape.forest, List.head?_cons, refMergePairs]

/-- C15: on a sibling list of disjoint well-formed trees, merge-pairs returns, with enough
fuel, a well-formed heap that encodes exactly the tree given by the reference recursion
`mp([]) = empty`, `mp([c1]) = c1`, `mp(c1 :: c2 :: rest) = meld(meld(c1, c2), mp(rest))`
over the reference meld. -/
theorem merge_pairs_refines (cmp : Nat → Nat → Bool) (s : State) (p : Option Nat) (t : Shape)
    (fuel : Nat) (hrep : Rep s.mem p t) (hnd : t.addrs.Nodup)
    (hf : t.spine.length / 2 < fuel) :
    ∃ h2 s2 t2, pheap_merge_pairs cmp fuel p s = .ok (h2, s2)
      ∧ WellFormed s2.mem h2 t2
      ∧ t2.forest = (refMergePairs cmp t.forest).toList := by
  obtain ⟨s2, hrun, hwf, _, _⟩ := merge_pairs_rep cmp fuel t p s hrep hnd hf
  exact ⟨_, s2, _, hrun, hwf, forest_mergePairsShape cmp t⟩

/-- Witness of C15: the sibling list of the three childless nodes 1, 2, 3. -/
theorem merge_pairs_refines_witness :
    Rep ((blank.setNext 1 (some 2)).setNext 2 (some 3)).mem (some 1)
        (.cell 1 .leaf (.cell 2 .leaf (.cell 3 .leaf .leaf)))
      ∧ (Shape.cell 1 .leaf (.cell 2 .leaf (.cell 3 .leaf .leaf))).addrs.Nodup
      ∧ (Shape.cell 1 .leaf (.cell 2 .leaf (.cell 3 .leaf .leaf))).spine.length / 2 < 2
      ∧ ∃ h2 s2 t2,
          pheap_merge_pairs sampleCmp 2 (some 1) ((blank.setNext 1 (some 2)).setNext 2 (some 3))
            = .ok (h2, s2)
          ∧ WellFormed s2.mem h2 t2
          ∧ t2.forest = (refMergePairs sampleCmp
              (Shape.cell 1 .leaf (.cell 2 .leaf (.cell 3 .leaf .leaf))).forest).toList :=
  ⟨⟨rfl, rfl, ⟨rfl, rfl, ⟨rfl, rfl, rfl⟩⟩⟩, by decide, by decide,
    merge_pairs_refines sampleCmp ((blank.setNext 1 (some 2)).setNext 2 (some 3)) (some 1)
      (.cell 1 .leaf (.cell 2 .leaf (.cell 3 .leaf .leaf))) 2
      ⟨rfl, rfl, ⟨rfl, rfl, ⟨rfl, rfl, rfl⟩⟩⟩ (by decide) (by decide)⟩

theorem meld_frame_any (cmp : Nat → Nat → Bool) (l r : Nat) (s : State) (x : Nat)
    (hxl : x ≠ l) (hxr : x ≠ r) :
    (pheap_meld cmp (some l) (some r) s).2.mem x = s.mem x := by
  simp only [pheap_meld]
  split
  · split <;> simp [hxl, hxr]
  · split <;> simp [hxl, hxr]

theorem sibList_agree {mem mem2 : Nat → PHeap} (l : List Nat) :
    ∀ p, (∀ a ∈ l, mem2 a = mem a) → SibList mem p l → SibList mem2 p l := by
  induction l with
  | nil => intro p _ h; exact h
  | cons a l ih =>
    intro p hag h
    refine ⟨h.1, ?_⟩
    rw [hag a (List.mem_cons_self a l)]
    exact ih _ (fun x hx => hag x (List.mem_cons_of_mem a hx)) h.2

/-- One step of merge-pairs on a list with at least two nodes: the recursive call is made
on the list without its first two nodes. -/
theorem merge_pairs_step (cmp : Nat → Nat → Bool) (s : State) (p : Option Nat)
    (a b : Nat) (rest : List Nat) (hl : SibList s.mem p (a :: b :: rest))
    (hnd : (a :: b :: rest).Nodup) :
    SibList (pheap_meld cmp (some a) (some b) ((s.setNext a none).setNext b none)).2.mem
        (s.mem b).next rest
      ∧ ∀ fuel, pheap_merge_pairs cmp (fuel + 1) p s
          = match pheap_merge_pairs cmp fuel (s.mem b).next
              (pheap_meld cmp (some a) (some b) ((s.setNext a none).setNext b none)).2 with
            | .error e => .error e
            | .ok second =>
              .ok (pheap_meld cmp
                (pheap_meld cmp (some a) (some b) ((s.setNext a none).setNext b none)).1
                second.1 second.2) := by
  obtain ⟨hp, hb, hrest⟩ := hl
  have hb1 : (s.mem a).next = some b := hb
  subst hp
  simp only [List.nodup_cons, List.mem_cons, not_or] at hnd
  obtain ⟨⟨hab, harest⟩, hbrest, _⟩ := hnd
  have hba : b ≠ a := fun h => hab h.symm
  constructor
  · refine sibList_agree rest _ (fun x hx => ?_) hrest
    have hxa : x ≠ a := fun h => harest (h ▸ hx)
    have hxb : x ≠ b := fun h => hbrest (h ▸ hx)
    rw [meld_frame_any cmp a b _ x hxa hxb]
    simp [hxa, hxb]
  · intro fuel
    have hrestptr : ((s.setNext a none).mem b).next = (s.mem b).next := by
      simp [hba]
    simp only [pheap_merge_pairs, hb1, hrestptr]

/-- The fuel that merge-pairs needs on a list of `m` nodes is exactly `m / 2 + 1`. -/
theorem merge_pairs_fuel_exact (cmp : Nat → Nat → Bool) :
    ∀ (fuel : Nat) (l : List Nat) (p : Option Nat) (s : State),
      SibList s.mem p l → l.Nodup →
      (l.length / 2 < fuel → ∃ res, pheap_merge_pairs cmp fuel p s = .ok res)
        ∧ (fuel ≤ l.length / 2 → pheap_merge_pairs cmp fuel p s = .error .fuel) := by
  intro fuel
  induction fuel with
  | zero =>
    intro l p s _ _
    exact ⟨fun h => by omega, fun _ => rfl⟩
  | succ fuel ih =>
    intro l p s hl hnd
    match l, hl, hnd with
    | [], hl, _ =>
      have : p = none := hl
      subst this
      exact ⟨fun _ => ⟨_, rfl⟩, fun h => by simp only [List.length_nil] at h; omega⟩
    | [a], hl, _ =>
      obtain ⟨hp, hn⟩ := hl
      subst hp
      have hn2 : (s.mem a).next = none := hn
      refine ⟨fun _ => ⟨(some a, s), ?_⟩,
        fun h => by simp only [List.length_singleton] at h; omega⟩
      simp only [pheap_merge_pairs, hn2]
    | a :: b :: rest, hl, hnd =>
      obtain ⟨hsl, hstep⟩ := merge_pairs_step cmp s p a b rest hl hnd
      have hnd2 : rest.Nodup := by
        simp only [List.nodup_cons] at hnd
        exact hnd.2.2
      obtain ⟨ih1, ih2⟩ := ih rest _ _ hsl hnd2
      simp only [List.length_cons]
      constructor
      · intro hf
        obtain ⟨res, hres⟩ := ih1 (by omega)
        rw [hstep fuel, hres]
        exact ⟨_, rfl⟩
      · intro hf
        rw [hstep fuel, ih2 (by omega)]

/-- C16: on a null-terminated sibling list of `m` distinct nodes, merge-pairs returns a
result as soon as the fuel exceeds `m / 2` and runs out of fuel otherwise, so its nested
recursive calls number `m / 2`; each recursive call is made on the list without its first
two nodes. -/
theorem merge_pairs_terminates (cmp : Nat → Nat → Bool) (s : State) (p : Option Nat)
    (l : List Nat) (hl : SibList s.mem p l) (hnd : l.Nodup) :
    (∀ fuel, l.length / 2 < fuel → ∃ res, pheap_merge_pairs cmp fuel p s = .ok res)
      ∧ (∀ fuel, fuel ≤ l.length / 2 → pheap_merge_pairs cmp fuel p s = .error .fuel)
      ∧ (∀ a b rest, l = a :: b :: rest → ∃ p2 s2 first, SibList s2.mem p2 rest
          ∧ rest.length + 2 = l.length
          ∧ ∀ fuel, pheap_merge_pairs cmp (fuel + 1) p s
              = match pheap_merge_pairs cmp fuel p2 s2 with
                | .error e => .error e
                | .ok second => .ok (pheap_meld cmp first second.1 second.2)) := by
  refine ⟨fun fuel => (merge_pairs_fuel_exact cmp fuel l p s hl hnd).1,
    fun fuel => (merge_pairs_fuel_exact cmp fuel l p s hl hnd).2, ?_⟩
  intro a b rest hab
  subst hab
  obtain ⟨hsl, hstep⟩ := merge_pairs_step cmp s p a b rest hl hnd
  exact ⟨_, _, _, hsl, rfl, hstep⟩

/-- Witness of C16: the sibling list of the three nodes 1, 2, 3. -/
theorem merge_pairs_terminates_witness :
    SibList ((blank.setNext 1 (some 2)).setNext 2 (some 3)).mem (some 1) [1, 2, 3]
      ∧ [1, 2, 3].Nodup
      ∧ ((∀ fuel, [1, 2, 3].length / 2 < fuel → ∃ res,
            pheap_merge_pairs sampleCmp fuel (some 1)
              ((blank.setNext 1 (some 2)).setNext 2 (some 3)) = .ok res)
        ∧ (∀ fuel, fuel ≤ [1, 2, 3].length / 2 →
            pheap_merge_pairs sampleCmp fuel (some 1)
              ((blank.setNext 1 (some 2)).setNext 2 (some 3)) = .error .fuel)
        ∧ (∀ a b rest, [1, 2, 3] = a :: b :: rest → ∃ p2 s2 first, SibList s2.mem p2 rest
            ∧ rest.length + 2 = [1, 2, 3].length
            ∧ ∀ fuel, pheap_merge_pairs sampleCmp (fuel + 1) (some 1)
                  ((blank.setNext 1 (some 2)).setNext 2 (some 3))
                = match pheap_merge_pairs sampleCmp fuel p2 s2 with
                  | .error e => .error e
                  | .ok second => .ok (pheap_meld sampleCmp first second.1 second.2))) :=
  ⟨⟨rfl, rfl, rfl, rfl⟩, by decide,
    merge_pairs_terminates sampleCmp ((blank.setNext 1 (some 2)).setNext 2 (some 3)) (some 1)
      [1, 2, 3] ⟨rfl, rfl, rfl, rfl⟩ (by decide)⟩

end PairingHeap
